import Mathlib

/-!
Verification development for the BibTeX parser module of the lab-website
repository (`src/js/bibtex-parser.js`).  The JavaScript code is shallowly
embedded: strings are `List Char`, the regex-based scanners are modelled by
executable functions that implement the exact matching semantics of the
concrete patterns appearing in the source, JavaScript objects are association
lists, and operations that would throw a `TypeError` in JavaScript are
modelled with `Option` (`none` = exception).  All inputs of interest are
ASCII, so the character classes (`\s`, `\w`) are modelled on ASCII.
-/

namespace BibTeX

/-- Shorthand turning a Lean string literal into the `List Char` the model
works with. -/
def S (s : String) : List Char := s.data

/-- ASCII part of the JavaScript `\s` character class (space, tab, newline,
carriage return, vertical tab, form feed). -/
def isSpace (c : Char) : Bool :=
  c = ' ' || c = '\t' || c = '\n' || c = '\r' ||
    c = Char.ofNat 11 || c = Char.ofNat 12

/-- The JavaScript `\w` character class: `[A-Za-z0-9_]`. -/
def isWordChar (c : Char) : Bool :=
  (97 ≤ c.toNat && c.toNat ≤ 122) || (65 ≤ c.toNat && c.toNat ≤ 90) ||
    (48 ≤ c.toNat && c.toNat ≤ 57) || c = '_'

/-- Decimal digit. -/
def isDigit (c : Char) : Bool := 48 ≤ c.toNat && c.toNat ≤ 57

/-- ASCII lower-casing, as `String.prototype.toLowerCase` acts on ASCII. -/
def toLowerChar (c : Char) : Char :=
  if 65 ≤ c.toNat && c.toNat ≤ 90 then Char.ofNat (c.toNat + 32) else c

def toLowerList (s : List Char) : List Char := s.map toLowerChar

/-- Split a list at the first occurrence of character `t`: returns the part
before (not containing `t`) and the part after. -/
def splitAtFirst (t : Char) : List Char → Option (List Char × List Char)
  | [] => none
  | c :: rest =>
    if c = t then some ([], rest)
    else (splitAtFirst t rest).map fun p => (c :: p.1, p.2)

theorem splitAtFirst_eq (t : Char) :
    ∀ s a b, splitAtFirst t s = some (a, b) → s = a ++ t :: b ∧ t ∉ a := by
  intro s
  induction s with
  | nil => intro a b h; simp [splitAtFirst] at h
  | cons c rest ih =>
    intro a b h
    by_cases hc : c = t
    · simp [splitAtFirst, hc] at h
      obtain ⟨ha, hb⟩ := h
      subst ha; subst hb; subst hc
      simp
    · simp [splitAtFirst, hc] at h
      obtain ⟨p, hp, hpa⟩ := h
      obtain ⟨h1, h2⟩ := ih p b hp
      constructor
      · rw [← hpa, h1]; simp
      · rw [← hpa]
        intro hmem
        rcases List.mem_cons.mp hmem with h | h
        · exact hc h.symm
        · exact h2 h

theorem splitAtFirst_append (t : Char) :
    ∀ a b, t ∉ a → splitAtFirst t (a ++ t :: b) = some (a, b) := by
  intro a
  induction a with
  | nil => intro b _; simp [splitAtFirst]
  | cons c rest ih =>
    intro b hmem
    have hc : ¬c = t := fun h => hmem (by simp [h])
    have hr : t ∉ rest := fun h => hmem (by simp [h])
    simp [splitAtFirst, hc, ih b hr]

theorem splitAtFirst_length (t : Char) :
    ∀ s a b, splitAtFirst t s = some (a, b) → b.length < s.length := by
  intro s a b h
  obtain ⟨h1, _⟩ := splitAtFirst_eq t s a b h
  subst h1
  simp
  omega

theorem splitAtFirst_not_mem (t : Char) :
    ∀ s, t ∉ s → splitAtFirst t s = none := by
  intro s
  induction s with
  | nil => intro _; rfl
  | cons c rest ih =>
    intro h
    have hc : ¬c = t := fun hh => h (by simp [hh])
    have hr : t ∉ rest := fun hh => h (by simp [hh])
    simp [splitAtFirst, hc, ih hr]

theorem length_dropWhile_le (p : Char → Bool) (s : List Char) :
    (s.dropWhile p).length ≤ s.length := by
  induction s with
  | nil => simp
  | cons c rest ih =>
    by_cases h : p c
    · rw [List.dropWhile_cons_of_pos h]; simp; omega
    · rw [List.dropWhile_cons_of_neg h]

/-- `String.prototype.trim` at the end of a list. -/
def trimEndList (s : List Char) : List Char := (s.reverse.dropWhile isSpace).reverse

/-- `String.prototype.trim`: strip whitespace from both ends. -/
def trimList (s : List Char) : List Char := trimEndList (s.dropWhile isSpace)

theorem mem_takeWhile_ne_length_lt (t : Char) :
    ∀ l : List Char, t ∈ l → (l.takeWhile fun d => !(d = t)).length < l.length := by
  intro l
  induction l with
  | nil => intro h; simp at h
  | cons c rest ih =>
    intro h
    by_cases hc : c = t
    · subst hc; simp [List.takeWhile_cons]
    · rw [List.takeWhile_cons]
      have hmem : t ∈ rest := by
        rcases List.mem_cons.mp h with h1 | h1
        · exact absurd h1.symm hc
        · exact h1
      simp [hc]
      exact ih hmem

theorem length_takeWhile_le (p : Char → Bool) (s : List Char) :
    (s.takeWhile p).length ≤ s.length := by
  induction s with
  | nil => simp
  | cons c rest ih =>
    rw [List.takeWhile_cons]
    by_cases h : p c
    · simp [h]; omega
    · simp [h]

/-!
## Entry extraction

Models `extractEntries` (bibtex-parser.js lines 92-113).  The JS code first
preprocesses (`%`-comment stripping, blank-line collapsing, trim) and then
repeatedly applies `/@(\w+)\s*\{\s*([^,]+)\s*,\s*([\s\S]*?)\s*\}/g`.  The
scanner below implements exactly the matching semantics of that regex:
the key capture is everything from the first non-space after `{` up to the
first comma (backtracking to the last whitespace character when the key part
is all whitespace), and the lazy body capture ends at the *first* `}` after
the comma, with surrounding whitespace absorbed by the greedy `\s*` pieces.
-/

structure RawEntry where
  type : List Char
  key : List Char
  content : List Char
  deriving DecidableEq, Repr

/-- Capture of `\s*([^,]+)\s*` applied to the comma-free segment `kpart`:
the greedy leading `\s*` strips the whitespace prefix, and when `kpart` is
all whitespace it backtracks so that the capture is the last character. -/
def keyCapture (kpart : List Char) : List Char :=
  if (kpart.dropWhile isSpace).isEmpty then kpart.drop (kpart.length - 1)
  else kpart.dropWhile isSpace

/-- Matching of `\s*([^,]+)\s*,\s*([\s\S]*?)\s*\}` against `t` (the text
after the entry's opening brace), given the already-captured type. Returns
the raw entry and the unconsumed remainder of the input. -/
def entryAfterBrace (typ : List Char) (t : List Char) : Option (RawEntry × List Char) :=
  match splitAtFirst ',' t with
  | none => none
  | some (kpart, u) =>
    if kpart.isEmpty then none
    else
      match splitAtFirst '}' u with
      | none => none
      | some (cpart, rest) =>
        some ({ type := typ, key := keyCapture kpart, content := trimList cpart }, rest)

/-- Attempt of the entry regex with the leading `@` already consumed:
`(\w+)\s*\{` then `entryAfterBrace`. -/
def tryEntryAt (s : List Char) : Option (RawEntry × List Char) :=
  if (s.takeWhile isWordChar).isEmpty then none
  else
    match (s.dropWhile isWordChar).dropWhile isSpace with
    | '{' :: t => entryAfterBrace (s.takeWhile isWordChar) t
    | _ => none

theorem entryAfterBrace_length (typ t : List Char) (e : RawEntry) (r : List Char)
    (h : entryAfterBrace typ t = some (e, r)) : r.length < t.length := by
  unfold entryAfterBrace at h
  split at h
  · exact absurd h (by simp)
  · rename_i kpart u hsplit
    split at h
    · exact absurd h (by simp)
    · split at h
      · exact absurd h (by simp)
      · rename_i cpart rest hsplit2
        have h1 := splitAtFirst_length ',' t kpart u hsplit
        have h2 := splitAtFirst_length '}' u cpart rest hsplit2
        simp at h
        rw [← h.2]
        omega

theorem tryEntryAt_length (s : List Char) (e : RawEntry) (r : List Char)
    (h : tryEntryAt s = some (e, r)) : r.length < s.length := by
  unfold tryEntryAt at h
  split at h
  · exact absurd h (by simp)
  · split at h
    · rename_i t hmatch
      have h1 := entryAfterBrace_length _ _ _ _ h
      have h2 : (Char.ofNat 123 :: t).length ≤ (s.dropWhile isWordChar).length := by
        rw [← hmatch]; exact length_dropWhile_le _ _
      have h3 := length_dropWhile_le isWordChar s
      simp at h2
      omega
    · exact absurd h (by simp)

/-- The repeated `exec` loop of the entry regex: scan left to right; every
match must begin at an `@`; on a successful match continue after it, on a
failed attempt advance one character.  The fuel argument (always instantiated
with the input length, which suffices since every step strictly shrinks the
input) makes the recursion structural. -/
def scanEntriesF : Nat → List Char → List RawEntry
  | 0, _ => []
  | _ + 1, [] => []
  | fuel + 1, c :: rest =>
    if c = '@' then
      match tryEntryAt rest with
      | some (e, rest2) => e :: scanEntriesF fuel rest2
      | none => scanEntriesF fuel rest
    else scanEntriesF fuel rest

def scanEntries (s : List Char) : List RawEntry := scanEntriesF s.length s

theorem scanEntriesF_fuel :
    ∀ f1 f2 s, s.length ≤ f1 → s.length ≤ f2 → scanEntriesF f1 s = scanEntriesF f2 s := by
  intro f1
  induction f1 with
  | zero =>
    intro f2 s h1 _
    have : s = [] := List.length_eq_zero.mp (Nat.le_zero.mp h1)
    subst this
    cases f2 <;> rfl
  | succ f1 ih =>
    intro f2 s h1 h2
    match s with
    | [] => cases f2 <;> rfl
    | c :: rest =>
      match f2 with
      | 0 => exact absurd h2 (by simp)
      | f2 + 1 =>
        simp only [List.length_cons] at h1 h2
        by_cases hc : c = '@'
        · subst hc
          match h : tryEntryAt rest with
          | some (e, rest2) =>
            have hl := tryEntryAt_length rest e rest2 h
            simp only [scanEntriesF, h, eq_self_iff_true, if_true]
            exact congrArg _ (ih f2 rest2 (by omega) (by omega))
          | none =>
            simp only [scanEntriesF, h, eq_self_iff_true, if_true]
            exact ih f2 rest (by omega) (by omega)
        · simp only [scanEntriesF, if_neg hc]
          exact ih f2 rest (by omega) (by omega)

theorem scanEntriesF_eq (fuel : Nat) (s : List Char) (h : s.length ≤ fuel) :
    scanEntriesF fuel s = scanEntries s :=
  scanEntriesF_fuel fuel s.length s h le_rfl

/-- `.replace(/%.*$/gm, '')`: drop everything from a `%` to the end of the
line (JS `.` stops at both `\n` and `\r`). -/
def stripCommentsF : Nat → List Char → List Char
  | 0, _ => []
  | _ + 1, [] => []
  | fuel + 1, c :: rest =>
    if c = '%' then stripCommentsF fuel (rest.dropWhile fun d => !(d = '\n' || d = '\r'))
    else c :: stripCommentsF fuel rest

def stripComments (s : List Char) : List Char := stripCommentsF s.length s

/-- `.replace(/\n\s*\n/g, '\n')`: a match starts at a newline, the greedy
`\s*` extends through the following whitespace run and backtracks to the last
newline inside it; the whole match is replaced by a single newline and
scanning resumes after it. -/
def collapseBlankF : Nat → List Char → List Char
  | 0, _ => []
  | _ + 1, [] => []
  | fuel + 1, c :: rest =>
    if c = '\n' then
      if '\n' ∈ rest.takeWhile isSpace then
        '\n' :: collapseBlankF fuel
          (((rest.takeWhile isSpace).reverse.takeWhile fun d => !(d = '\n')).reverse ++
            rest.drop (rest.takeWhile isSpace).length)
      else '\n' :: collapseBlankF fuel rest
    else c :: collapseBlankF fuel rest

def collapseBlank (s : List Char) : List Char := collapseBlankF s.length s

/-- The preprocessing pipeline of `extractEntries`: comment stripping, blank
line collapsing, and a whole-document trim. -/
def preprocess (s : List Char) : List Char := trimList (collapseBlank (stripComments s))

/-- `extractEntries` (bibtex-parser.js lines 92-113). -/
def extractEntries (s : List Char) : List RawEntry := scanEntries (preprocess s)

/-!
## Field parsing

Models `parseFields` (bibtex-parser.js lines 158-185): the repeated regex
`/(\w+)\s*=\s*\{([^{}]*(?:\{[^{}]*\}[^{}]*)*)\}/g` over an entry's content,
followed by the per-value cleaning chain and lower-casing of field names.
-/

/-- The `[^{}]` character class. -/
def notBrace (c : Char) : Bool := !(c = '{' || c = '}')

/-- Matching of `[^{}]*(?:\{[^{}]*\}[^{}]*)*` followed by `\}` at the start
of `s`: returns the value capture (with inner one-level brace groups kept)
and the remainder after the closing brace.  Fuel-structural recursion; the
input length is always enough fuel. -/
def takeBalanced1F : Nat → List Char → Option (List Char × List Char)
  | 0, _ => none
  | fuel + 1, s =>
    match s.dropWhile notBrace with
    | '}' :: rest => some (s.takeWhile notBrace, rest)
    | '{' :: t =>
      match t.dropWhile notBrace with
      | '}' :: u =>
        match takeBalanced1F fuel u with
        | some (v, rest) =>
          some (s.takeWhile notBrace ++ '{' :: t.takeWhile notBrace ++ '}' :: v, rest)
        | none => none
      | _ => none
    | _ => none

def takeBalanced1 (s : List Char) : Option (List Char × List Char) :=
  takeBalanced1F s.length s

/-- Attempt of the field regex at the current position:
`(\w+)\s*=\s*\{` then the balanced value and its closing brace.  Returns the
raw name capture, the raw value capture, and the remainder. -/
def tryFieldAt (s : List Char) : Option ((List Char × List Char) × List Char) :=
  if (s.takeWhile isWordChar).isEmpty then none
  else
    match (s.dropWhile isWordChar).dropWhile isSpace with
    | '=' :: s2 =>
      match s2.dropWhile isSpace with
      | '{' :: s3 =>
        match takeBalanced1 s3 with
        | some (v, rest) => some ((s.takeWhile isWordChar, v), rest)
        | none => none
      | _ => none
    | _ => none

/-- The repeated `exec` loop of the field regex: on a successful match
continue after it, otherwise advance one character (only positions starting
with a word character can match). -/
def scanFieldsF : Nat → List Char → List (List Char × List Char)
  | 0, _ => []
  | _ + 1, [] => []
  | fuel + 1, c :: rest =>
    if isWordChar c then
      match tryFieldAt (c :: rest) with
      | some (nv, rest2) => nv :: scanFieldsF fuel rest2
      | none => scanFieldsF fuel rest
    else scanFieldsF fuel rest

def scanFields (s : List Char) : List (List Char × List Char) := scanFieldsF s.length s

/-- The character class of `/\\[`'~^=.\{\}]/`: the typographic accent and
brace commands whose backslash forms are deleted. -/
def isLatexPunct (c : Char) : Bool :=
  c = Char.ofNat 96 || c = Char.ofNat 39 || c = '~' || c = '^' ||
    c = '=' || c = '.' || c = '{' || c = '}'

/-- `.replace(/\\[`'~^=.\{\}]/g, '')`. -/
def stripLatexPunct : List Char → List Char
  | [] => []
  | '\\' :: c :: rest =>
    if isLatexPunct c then stripLatexPunct rest else '\\' :: stripLatexPunct (c :: rest)
  | c :: rest => c :: stripLatexPunct rest

/-- `.replace(/\{\s*\}/g, '')`: remove brace pairs containing only
whitespace. -/
def stripEmptyBracesF : Nat → List Char → List Char
  | 0, _ => []
  | _ + 1, [] => []
  | fuel + 1, c :: rest =>
    if c = '{' then
      match rest.dropWhile isSpace with
      | '}' :: r => stripEmptyBracesF fuel r
      | _ => '{' :: stripEmptyBracesF fuel rest
    else c :: stripEmptyBracesF fuel rest

def stripEmptyBraces (s : List Char) : List Char := stripEmptyBracesF s.length s

/-- `.replace(/\s+/g, ' ')`: collapse every whitespace run to one space. -/
def collapseWsF : Nat → List Char → List Char
  | 0, _ => []
  | _ + 1, [] => []
  | fuel + 1, c :: rest =>
    if isSpace c then ' ' :: collapseWsF fuel (rest.dropWhile isSpace)
    else c :: collapseWsF fuel rest

def collapseWs (s : List Char) : List Char := collapseWsF s.length s

/-- The final `if (fieldValue.startsWith('{') && fieldValue.endsWith('}'))
fieldValue = fieldValue.slice(1, -1)` step. -/
def stripOuterBraces (s : List Char) : List Char :=
  if s.head? = some '{' ∧ s.getLast? = some '}' then (s.drop 1).dropLast else s

/-- The value-cleaning chain of `parseFields` (lines 169-179). -/
def cleanFieldValue (v : List Char) : List Char :=
  stripOuterBraces (trimList (collapseWs (stripEmptyBraces (stripLatexPunct v))))

/-- JavaScript object assignment `obj[k] = v` on an association list:
update in place if the key exists (keeping its position), else append. -/
def jsObjSet (tbl : List (List Char × List Char)) (k v : List Char) :
    List (List Char × List Char) :=
  if tbl.any fun p => p.1 == k then tbl.map fun p => if p.1 == k then (k, v) else p
  else tbl ++ [(k, v)]

/-- Lookup in a field table. -/
def tblGet (tbl : List (List Char × List Char)) (k : List Char) : Option (List Char) :=
  (tbl.find? fun p => p.1 == k).map fun p => p.2

/-- `parseFields` (bibtex-parser.js lines 158-185): run the field regex over
the content, lower-case each name, clean each value, and assign into the
fields object in match order. -/
def parseFields (content : List Char) : List (List Char × List Char) :=
  (scanFields content).foldl
    (fun tbl nv => jsObjSet tbl (toLowerList nv.1) (cleanFieldValue nv.2)) []

/-!
## Value post-processing: `cleanLatex`, authors, keywords, year
-/

def isAlpha (c : Char) : Bool :=
  (97 ≤ c.toNat && c.toNat ≤ 122) || (65 ≤ c.toNat && c.toNat ≤ 90)

/-- Match of `[a-zA-Z]+\{([^}]+)\}` right after a backslash: returns the
argument capture and the remainder. -/
def tryCmdArgAt (s : List Char) : Option (List Char × List Char) :=
  if (s.takeWhile isAlpha).isEmpty then none
  else
    match s.dropWhile isAlpha with
    | '{' :: t =>
      match splitAtFirst '}' t with
      | some (arg, rest) => if arg.isEmpty then none else some (arg, rest)
      | none => none
    | _ => none

/-- `.replace(/\\[a-zA-Z]+\{([^}]+)\}/g, '$1')`: replace commands with a
braced argument by the bare argument. -/
def stripCmdArgsF : Nat → List Char → List Char
  | 0, _ => []
  | _ + 1, [] => []
  | fuel + 1, c :: rest =>
    if c = '\\' then
      match tryCmdArgAt rest with
      | some (arg, rest2) => arg ++ stripCmdArgsF fuel rest2
      | none => '\\' :: stripCmdArgsF fuel rest
    else c :: stripCmdArgsF fuel rest

def stripCmdArgs (s : List Char) : List Char := stripCmdArgsF s.length s

/-- `.replace(/\\[a-zA-Z]/g, '')`: removes a backslash and a single
following letter. -/
def stripCmdNoArg : List Char → List Char
  | [] => []
  | '\\' :: c :: rest =>
    if isAlpha c then stripCmdNoArg rest else '\\' :: stripCmdNoArg (c :: rest)
  | c :: rest => c :: stripCmdNoArg rest

/-- `cleanLatex` (bibtex-parser.js lines 219-226). -/
def cleanLatex (text : List Char) : List Char :=
  trimList (collapseWs ((stripCmdNoArg (stripCmdArgs text)).filter notBrace))

/-- Authors: one entry of `{name, is_highlighted}`; the parser always sets
`is_highlighted: false`. -/
structure Author where
  name : List Char
  is_highlighted : Bool
  deriving DecidableEq, Repr

/-- Match of the author separator `/\s+and\s+/i` at the current position:
whitespace run, then `and` case-insensitively, then another whitespace run;
returns the remainder after the separator. -/
def isAndAt (s : List Char) : Option (List Char) :=
  match s with
  | [] => none
  | c :: _ =>
    if isSpace c then
      match s.dropWhile isSpace with
      | a :: n :: d :: e :: rest =>
        if (toLowerChar a = 'a' ∧ toLowerChar n = 'n' ∧ toLowerChar d = 'd') ∧ isSpace e then
          some ((e :: rest).dropWhile isSpace)
        else none
      | _ => none
    else none

/-- `String.prototype.split` on `/\s+and\s+/i`, accumulating the current
segment (in reverse). -/
def splitAndGo : Nat → List Char → List Char → List (List Char)
  | 0, _, acc => [acc.reverse]
  | _ + 1, [], acc => [acc.reverse]
  | fuel + 1, c :: rest, acc =>
    match isAndAt (c :: rest) with
    | some rest2 => acc.reverse :: splitAndGo fuel rest2 []
    | none => splitAndGo fuel rest (c :: acc)

def splitAnd (s : List Char) : List (List Char) := splitAndGo s.length s []

/-- `parseAuthors` (bibtex-parser.js lines 231-237). -/
def parseAuthors (s : List Char) : List Author :=
  (splitAnd s).map fun n => { name := trimList n, is_highlighted := false }

/-- `String.prototype.split` on `/[,;]\s*/`. -/
def splitKwGo : Nat → List Char → List Char → List (List Char)
  | 0, _, acc => [acc.reverse]
  | _ + 1, [], acc => [acc.reverse]
  | fuel + 1, c :: rest, acc =>
    if c = ',' || c = ';' then acc.reverse :: splitKwGo fuel (rest.dropWhile isSpace) []
    else splitKwGo fuel rest (c :: acc)

/-- `parseKeywords` (bibtex-parser.js lines 242-247). -/
def parseKeywords (s : List Char) : List (List Char) :=
  ((splitKwGo s.length s []).map trimList).filter fun k => !k.isEmpty

def isHexDigit (c : Char) : Bool :=
  isDigit c || (97 ≤ c.toNat && c.toNat ≤ 102) || (65 ≤ c.toNat && c.toNat ≤ 70)

def digitsToNat (l : List Char) : Nat :=
  l.foldl (fun a c => a * 10 + (c.toNat - 48)) 0

def hexVal (c : Char) : Nat :=
  if isDigit c then c.toNat - 48
  else if 97 ≤ c.toNat && c.toNat ≤ 102 then c.toNat - 87
  else c.toNat - 55

def hexToNat (l : List Char) : Nat := l.foldl (fun a c => a * 16 + hexVal c) 0

/-- JavaScript `parseInt(value)` with no radix: skip whitespace, optional
sign, `0x`-prefixed hexadecimal or a leading decimal digit run; `none`
models `NaN`. -/
def parseIntJS (s : List Char) : Option Int :=
  let t := s.dropWhile isSpace
  let signed : Bool × List Char :=
    match t with
    | '-' :: r => (true, r)
    | '+' :: r => (false, r)
    | _ => (false, t)
  let hex : Option (List Char) :=
    match signed.2 with
    | '0' :: x :: r => if x = 'x' || x = 'X' then some r else none
    | _ => none
  match hex with
  | some r =>
    let ds := r.takeWhile isHexDigit
    if ds.isEmpty then none
    else some (if signed.1 then -(hexToNat ds : Int) else (hexToNat ds : Int))
  | none =>
    let ds := signed.2.takeWhile isDigit
    if ds.isEmpty then none
    else some (if signed.1 then -(digitsToNat ds : Int) else (digitsToNat ds : Int))

/-!
## The record model and `parseEntry`

JavaScript objects (publication records) are association lists from field
name to `JVal`.  Assignments update in place or append; reading an absent
key is `none`; `undefined`-assignments (which JS uses to erase a value
observably) are modelled by `rErase`.  Operations that would throw a
`TypeError` return `none` at the `Option Record` level.
-/

inductive JVal where
  | vStr : List Char → JVal
  | vNum : Int → JVal
  | vAuthors : List Author → JVal
  | vStrList : List (List Char) → JVal
  deriving DecidableEq, Repr

abbrev Record := List (List Char × JVal)

def rGet (r : Record) (k : List Char) : Option JVal :=
  (r.find? fun p => p.1 == k).map fun p => p.2

def rSet (r : Record) (k : List Char) (v : JVal) : Record :=
  if r.any fun p => p.1 == k then r.map fun p => if p.1 == k then (k, v) else p
  else r ++ [(k, v)]

def rErase (r : Record) (k : List Char) : Record := r.filter fun p => !(p.1 == k)

/-- JavaScript truthiness of a value (arrays are always truthy). -/
def jsTruthy : JVal → Bool
  | .vStr s => !s.isEmpty
  | .vNum n => n != 0
  | .vAuthors _ => true
  | .vStrList _ => true

def truthyOpt : Option JVal → Bool
  | none => false
  | some v => jsTruthy v

/-- JavaScript string coercion, as used in template literals. -/
def jsToString : JVal → List Char
  | .vStr s => s
  | .vNum n => S (toString n)
  | .vAuthors l => List.intercalate (S ",") (l.map fun _ => S "[object Object]")
  | .vStrList l => List.intercalate (S ",") l

/-- `fieldMappings` (bibtex-parser.js lines 8-78), in source order. -/
def fieldMappings : List (List Char × List Char) := [
  (S "title", S "title"), (S "author", S "authors"), (S "year", S "year"),
  (S "month", S "month"), (S "journal", S "journal"),
  (S "booktitle", S "conference"), (S "volume", S "volume"),
  (S "number", S "issue"), (S "pages", S "pages"),
  (S "publisher", S "publisher"), (S "doi", S "doi"), (S "url", S "url"),
  (S "isbn", S "isbn"), (S "issn", S "issn"), (S "abstract", S "abstract"),
  (S "keywords", S "keywords"), (S "note", S "note"), (S "series", S "series"),
  (S "edition", S "edition"), (S "chapter", S "chapter"),
  (S "school", S "school"), (S "institution", S "institution"),
  (S "organization", S "organization"), (S "address", S "address"),
  (S "howpublished", S "how_published"), (S "type", S "publication_type"),
  (S "venue", S "venue"), (S "location", S "location"),
  (S "editor", S "editors"), (S "copyright", S "copyright"),
  (S "language", S "language"), (S "isbn13", S "isbn13"),
  (S "issn13", S "issn13"), (S "pmid", S "pmid"), (S "pmcid", S "pmcid"),
  (S "arxiv", S "arxiv_id"), (S "code", S "code_url"), (S "data", S "data_url"),
  (S "slides", S "slides_url"), (S "video", S "video_url"),
  (S "blog", S "blog_url"), (S "press", S "press_url"), (S "award", S "award"),
  (S "impact_factor", S "impact_factor"),
  (S "citation_count", S "citation_count"),
  (S "altmetric", S "altmetric_score"),
  (S "research_area", S "research_area"),
  (S "research_group", S "research_group"), (S "funding", S "funding"),
  (S "acknowledgments", S "acknowledgments"),
  (S "collaborators", S "collaborators"),
  (S "competitions", S "competitions"), (S "patents", S "patents"),
  (S "software", S "software"), (S "datasets", S "datasets"),
  (S "presentations", S "presentations"),
  (S "media_coverage", S "media_coverage"),
  (S "public_engagement", S "public_engagement"),
  (S "policy_impact", S "policy_impact"),
  (S "industry_collaboration", S "industry_collaboration"),
  (S "international_collaboration", S "international_collaboration"),
  (S "student_authors", S "student_authors"),
  (S "early_career_authors", S "early_career_authors"),
  (S "corresponding_author", S "corresponding_author"),
  (S "equal_contribution", S "equal_contribution"),
  (S "senior_author", S "senior_author")]

/-- `typeMapping` inside `mapEntryType` (lines 253-270). -/
def typeMapping : List (List Char × List Char) := [
  (S "article", S "journal"), (S "inproceedings", S "conference"),
  (S "incollection", S "book_chapter"), (S "book", S "book"),
  (S "phdthesis", S "thesis"), (S "mastersthesis", S "thesis"),
  (S "techreport", S "report"), (S "misc", S "other"),
  (S "unpublished", S "preprint"), (S "inbook", S "book_chapter"),
  (S "proceedings", S "conference"), (S "booklet", S "other"),
  (S "manual", S "other"), (S "patent", S "patent"),
  (S "dataset", S "dataset"), (S "software", S "software")]

/-- `mapEntryType` (lines 252-273): lower-cased lookup with `other` as
catch-all. -/
def mapEntryType (t : List Char) : List Char :=
  match tblGet typeMapping (toLowerList t) with
  | some v => v
  | none => S "other"

/-- `processField` (lines 190-214): dispatch on the internal field name. -/
def processField (fieldName : List Char) (value : List Char) : JVal :=
  if fieldName = S "authors" then .vAuthors (parseAuthors value)
  else if fieldName = S "keywords" then .vStrList (parseKeywords value)
  else if fieldName = S "year" then
    match parseIntJS value with
    | some n => if n = 0 then .vStr value else .vNum n
    | none => .vStr value
  else if fieldName = S "volume" ∨ fieldName = S "issue" ∨ fieldName = S "pages" then
    .vStr value
  else if fieldName = S "title" ∨ fieldName = S "abstract" then .vStr (cleanLatex value)
  else if fieldName = S "url" ∨ fieldName = S "doi" ∨ fieldName = S "arxiv" ∨
      fieldName = S "pmid" ∨ fieldName = S "pmcid" then
    .vStr value
  else .vStr (cleanLatex value)

/-- Lines 280-284: `display_title` from `title`.  A string or number title
is copied; an object-typed title (arrays included, since `typeof [] ===
'object'`) takes `.en`, `.zh`, then `Object.values(title)[0]`; an absent
title assigns `undefined`, observably erasing the key. -/
def displayTitleStep (p : Record) : Record :=
  match rGet p (S "title") with
  | some (.vStr s) => rSet p (S "display_title") (.vStr s)
  | some (.vNum n) => rSet p (S "display_title") (.vNum n)
  | some (.vStrList l) =>
    match l with
    | t :: _ => rSet p (S "display_title") (.vStr t)
    | [] => rErase p (S "display_title")
  | some (.vAuthors l) =>
    match l with
    | a :: _ => rSet p (S "display_title") (.vAuthors [a])
    | [] => rErase p (S "display_title")
  | none => rErase p (S "display_title")

/-- Lines 287-289: `author_string`.  A truthy non-array `authors` value of
positive `.length` makes `publication.authors.map` throw (`none`); an array
of plain strings would map each to `undefined` (`a.name` on a string). -/
def authorStringStep (p : Record) : Option Record :=
  match rGet p (S "authors") with
  | some (.vAuthors l) =>
    if l.isEmpty then some p
    else some (rSet p (S "author_string")
      (.vStr (List.intercalate (S ", ") (l.map fun a => a.name))))
  | some (.vStr s) => if s.isEmpty then some p else none
  | some (.vStrList l) =>
    if l.isEmpty then some p
    else some (rSet p (S "author_string")
      (.vStr (List.intercalate (S ", ") (l.map fun _ => S "undefined"))))
  | some (.vNum _) => some p
  | none => some p

/-- Lines 292-298: `display_venue` from `journal`, then `conference`, then
`booktitle`; nothing is assigned when none of the three is truthy. -/
def venueStep (p : Record) : Record :=
  match rGet p (S "journal") with
  | some j =>
    if jsTruthy j then rSet p (S "display_venue") j
    else venueStep2 p
  | none => venueStep2 p
where
  venueStep2 (p : Record) : Record :=
    match rGet p (S "conference") with
    | some c =>
      if jsTruthy c then rSet p (S "display_venue") c
      else venueStep3 p
    | none => venueStep3 p
  venueStep3 (p : Record) : Record :=
    match rGet p (S "booktitle") with
    | some b => if jsTruthy b then rSet p (S "display_venue") b else p
    | none => p

/-- `\b(19|20)\d{2}\b` matched at the start of `s` (the previous character
is known to be a non-word character): the matched number. -/
def yearAtHere (s : List Char) : Option Nat :=
  match s with
  | a :: b :: c :: d :: rest =>
    if ((a = '1' ∧ b = '9') ∨ (a = '2' ∧ b = '0')) ∧ isDigit c ∧ isDigit d then
      match rest with
      | [] => some (digitsToNat [a, b, c, d])
      | e :: _ => if isWordChar e then none else some (digitsToNat [a, b, c, d])
    else none
  | _ => none

/-- Leftmost match of `/\b(19|20)\d{2}\b/`; the boolean tracks whether the
previous character was a word character (for the leading `\b`). -/
def firstYearMatchGo : Bool → List Char → Option Nat
  | _, [] => none
  | prevWord, c :: rest =>
    if prevWord then firstYearMatchGo (isWordChar c) rest
    else
      match yearAtHere (c :: rest) with
      | some y => some y
      | none => firstYearMatchGo (isWordChar c) rest

def firstYearMatch (m : List Char) : Option Nat := firstYearMatchGo false m

/-- Lines 300-307: derive `year` from `month` when `year` is falsy;
`month.match` throws when `month` is a truthy non-string. -/
def yearMonthStep (p : Record) : Option Record :=
  if !truthyOpt (rGet p (S "year")) && truthyOpt (rGet p (S "month")) then
    match rGet p (S "month") with
    | some (.vStr m) =>
      match firstYearMatch m with
      | some y => some (rSet p (S "year") (.vNum y))
      | none => some p
    | some _ => none
    | none => some p
  else some p

/-- Lines 310-312: synthesize `url` from `doi` when `doi` is truthy and
`url` is not. -/
def urlStepDoi (p : Record) : Record :=
  match rGet p (S "doi") with
  | some d =>
    if jsTruthy d && !truthyOpt (rGet p (S "url")) then
      rSet p (S "url") (.vStr (S "https://doi.org/" ++ jsToString d))
    else p
  | none => p

/-- Lines 314-316: synthesize `url` from `arxiv` under the same condition,
evaluated after the doi step. -/
def urlStepArxiv (p : Record) : Record :=
  match rGet p (S "arxiv") with
  | some a =>
    if jsTruthy a && !truthyOpt (rGet p (S "url")) then
      rSet p (S "url") (.vStr (S "https://arxiv.org/abs/" ++ jsToString a))
    else p
  | none => p

/-- Lines 309-316: both url-generation steps in source order. -/
def urlSteps (p : Record) : Record := urlStepArxiv (urlStepDoi p)

/-- `setComputedFields` (lines 278-317). -/
def setComputedFields (p : Record) : Option Record :=
  match authorStringStep (displayTitleStep p) with
  | none => none
  | some p2 =>
    match yearMonthStep (venueStep p2) with
    | none => none
    | some p4 => some (urlSteps p4)

/-- One iteration of the field-mapping `forEach` (lines 129-137): a known
(lower-cased) name is mapped and processed, an unknown one is copied
verbatim. -/
def applyField (r : Record) (nv : List Char × List Char) : Record :=
  match tblGet fieldMappings (toLowerList nv.1) with
  | some our => rSet r our (processField our nv.2)
  | none => rSet r nv.1 (.vStr nv.2)

/-- The base record of `parseEntry` (lines 119-123). -/
def baseRecord (e : RawEntry) : Record := [
  (S "id", .vStr e.key),
  (S "type", .vStr (mapEntryType e.type)),
  (S "raw_bibtex",
    .vStr (S "@" ++ e.type ++ S "\x7b" ++ e.key ++ S ", " ++ e.content ++ S "\x7d"))]

/-- The author special-case (lines 140-142): `if (fields.author)` re-parses
the raw author string (skipped when it is empty, i.e. falsy). -/
def authorSpecial (fields : List (List Char × List Char)) (r : Record) : Record :=
  match tblGet fields (S "author") with
  | some v => if v.isEmpty then r else rSet r (S "authors") (.vAuthors (parseAuthors v))
  | none => r

/-- The keywords special-case (lines 145-147). -/
def keywordsSpecial (fields : List (List Char × List Char)) (r : Record) : Record :=
  match tblGet fields (S "keywords") with
  | some v => if v.isEmpty then r else rSet r (S "keywords") (.vStrList (parseKeywords v))
  | none => r

/-- `parseEntry` (lines 118-153).  `none` models a thrown `TypeError`. -/
def parseEntry (e : RawEntry) : Option Record :=
  setComputedFields
    (keywordsSpecial (parseFields e.content)
      (authorSpecial (parseFields e.content)
        ((parseFields e.content).foldl applyField (baseRecord e))))

/-- `parseBibTeX` (lines 84-87): extract then parse each entry; a thrown
exception anywhere aborts the whole call. -/
def parseBibTeX (s : List Char) : Option (List Record) :=
  (extractEntries s).mapM parseEntry

/-!
## Record access lemmas
-/

theorem find?_append {α : Type} (p : α → Bool) (l1 l2 : List α) (hnone : l1.find? p = none) :
    (l1 ++ l2).find? p = l2.find? p := by
  induction l1 with
  | nil => simp
  | cons a rest ih =>
    by_cases h : p a
    · simp [List.find?, h] at hnone
    · simp only [List.find?_cons_of_neg _ h] at hnone
      simp only [List.cons_append, List.find?_cons_of_neg _ h]
      exact ih hnone

theorem find?_key_cons_ne (p : List Char × JVal) (rest : Record) (k : List Char)
    (h : ¬(p.1 == k) = true) :
    List.find? (fun q => q.1 == k) (p :: rest) = List.find? (fun q => q.1 == k) rest :=
  List.find?_cons_of_neg _ h

theorem find?_key_cons_eq (p : List Char × JVal) (rest : Record) (k : List Char)
    (h : (p.1 == k) = true) :
    List.find? (fun q => q.1 == k) (p :: rest) = some p :=
  List.find?_cons_of_pos _ h

theorem find?_map_update_self (l : Record) (k : List Char) (v : JVal)
    (hany : (l.any fun p => p.1 == k) = true) :
    (l.map fun p => if p.1 == k then (k, v) else p).find? (fun p => p.1 == k) =
      some (k, v) := by
  induction l with
  | nil => simp at hany
  | cons p rest ih =>
    by_cases hp : (p.1 == k) = true
    · simp [List.find?, hp]
    · have hrest : (rest.any fun p => p.1 == k) = true := by
        simp only [List.any_cons, Bool.eq_false_iff.mpr hp, Bool.false_or] at hany
        exact hany
      rw [List.map_cons, if_neg hp, find?_key_cons_ne p _ k hp]
      exact ih hrest

theorem find?_map_update_ne (l : Record) (k k2 : List Char) (v : JVal) (hk : k2 ≠ k) :
    (l.map fun p => if p.1 == k then (k, v) else p).find? (fun p => p.1 == k2) =
      l.find? (fun p => p.1 == k2) := by
  induction l with
  | nil => simp
  | cons p rest ih =>
    by_cases hp : (p.1 == k) = true
    · have hp2 : ¬((k, v).1 == k2) = true := by
        simp only [beq_iff_eq]
        exact fun hcon => hk hcon.symm
      have hp3 : ¬(p.1 == k2) = true := by
        simp only [beq_iff_eq] at hp ⊢
        rw [hp]
        exact fun hcon => hk hcon.symm
      rw [List.map_cons, if_pos hp, find?_key_cons_ne _ _ k2 hp2,
        find?_key_cons_ne p _ k2 hp3]
      exact ih
    · rw [List.map_cons, if_neg hp]
      by_cases hq : (p.1 == k2) = true
      · rw [find?_key_cons_eq p _ k2 hq, find?_key_cons_eq p _ k2 hq]
      · rw [find?_key_cons_ne p _ k2 hq, find?_key_cons_ne p _ k2 hq]
        exact ih

theorem find?_append_single_ne (l : Record) (k k2 : List Char) (v : JVal) (hk : k2 ≠ k) :
    (l ++ [(k, v)]).find? (fun p => p.1 == k2) = l.find? (fun p => p.1 == k2) := by
  induction l with
  | nil =>
    have hp2 : ¬((k, v).1 == k2) = true := by
      simp only [beq_iff_eq]
      exact fun hcon => hk hcon.symm
    simp [List.find?, hp2]
  | cons p rest ih =>
    by_cases hq : (p.1 == k2) = true
    · rw [List.cons_append, find?_key_cons_eq p _ k2 hq, find?_key_cons_eq p _ k2 hq]
    · rw [List.cons_append, find?_key_cons_ne p _ k2 hq, find?_key_cons_ne p _ k2 hq]
      exact ih

theorem rGet_rSet_self (r : Record) (k : List Char) (v : JVal) :
    rGet (rSet r k v) k = some v := by
  unfold rSet rGet
  by_cases hany : (r.any fun p => p.1 == k) = true
  · simp only [if_pos hany, find?_map_update_self r k v hany]
    rfl
  · simp only [if_neg hany]
    have hnone : r.find? (fun p => p.1 == k) = none := by
      rw [List.find?_eq_none]
      intro a ha hcon
      exact hany (List.any_eq_true.mpr ⟨a, ha, hcon⟩)
    rw [find?_append _ _ _ hnone]
    simp [List.find?]

theorem rGet_rSet_ne (r : Record) (k k2 : List Char) (v : JVal) (hk : k2 ≠ k) :
    rGet (rSet r k v) k2 = rGet r k2 := by
  unfold rSet rGet
  by_cases hany : (r.any fun p => p.1 == k) = true
  · simp only [if_pos hany, find?_map_update_ne r k k2 v hk]
  · simp only [if_neg hany, find?_append_single_ne r k k2 v hk]

theorem find?_filter_ne (l : Record) (k k2 : List Char) (hk : k2 ≠ k) :
    (l.filter fun p => !(p.1 == k)).find? (fun p => p.1 == k2) =
      l.find? (fun p => p.1 == k2) := by
  induction l with
  | nil => simp
  | cons p rest ih =>
    by_cases hp : (p.1 == k) = true
    · have hp3 : ¬(p.1 == k2) = true := by
        simp only [beq_iff_eq] at hp ⊢
        rw [hp]
        exact fun hcon => hk hcon.symm
      rw [List.filter_cons, if_neg (by simp [hp]), find?_key_cons_ne p _ k2 hp3]
      exact ih
    · have hp4 : (!(p.1 == k)) = true := by
        rw [Bool.eq_false_iff.mpr hp]
        rfl
      by_cases hq : (p.1 == k2) = true
      · rw [List.filter_cons, if_pos hp4, find?_key_cons_eq p _ k2 hq,
          find?_key_cons_eq p _ k2 hq]
      · rw [List.filter_cons, if_pos hp4, find?_key_cons_ne p _ k2 hq,
          find?_key_cons_ne p _ k2 hq]
        exact ih

theorem rGet_rErase_ne (r : Record) (k k2 : List Char) (hk : k2 ≠ k) :
    rGet (rErase r k) k2 = rGet r k2 := by
  unfold rErase rGet
  rw [find?_filter_ne r k k2 hk]

/-!
## Frame and behavior lemmas for the computed-field steps
-/

theorem displayTitleStep_frame (p : Record) (k : List Char) (hk : k ≠ S "display_title") :
    rGet (displayTitleStep p) k = rGet p k := by
  unfold displayTitleStep
  split
  · exact rGet_rSet_ne _ _ _ _ hk
  · exact rGet_rSet_ne _ _ _ _ hk
  · split
    · exact rGet_rSet_ne _ _ _ _ hk
    · exact rGet_rErase_ne _ _ _ hk
  · split
    · exact rGet_rSet_ne _ _ _ _ hk
    · exact rGet_rErase_ne _ _ _ hk
  · exact rGet_rErase_ne _ _ _ hk

theorem authorStringStep_frame (p q : Record) (h : authorStringStep p = some q)
    (k : List Char) (hk : k ≠ S "author_string") : rGet q k = rGet p k := by
  unfold authorStringStep at h
  split at h
  · split at h
    · rw [← Option.some_inj.mp h]
    · rw [← Option.some_inj.mp h]
      exact rGet_rSet_ne _ _ _ _ hk
  · split at h
    · rw [← Option.some_inj.mp h]
    · exact absurd h (by simp)
  · split at h
    · rw [← Option.some_inj.mp h]
    · rw [← Option.some_inj.mp h]
      exact rGet_rSet_ne _ _ _ _ hk
  · rw [← Option.some_inj.mp h]
  · rw [← Option.some_inj.mp h]

theorem venueStep3_frame (p : Record) (k : List Char) (hk : k ≠ S "display_venue") :
    rGet (venueStep.venueStep3 p) k = rGet p k := by
  unfold venueStep.venueStep3
  split
  · split
    · exact rGet_rSet_ne _ _ _ _ hk
    · rfl
  · rfl

theorem venueStep2_frame (p : Record) (k : List Char) (hk : k ≠ S "display_venue") :
    rGet (venueStep.venueStep2 p) k = rGet p k := by
  unfold venueStep.venueStep2
  split
  · split
    · exact rGet_rSet_ne _ _ _ _ hk
    · exact venueStep3_frame p k hk
  · exact venueStep3_frame p k hk

theorem venueStep_frame (p : Record) (k : List Char) (hk : k ≠ S "display_venue") :
    rGet (venueStep p) k = rGet p k := by
  unfold venueStep
  split
  · split
    · exact rGet_rSet_ne _ _ _ _ hk
    · exact venueStep2_frame p k hk
  · exact venueStep2_frame p k hk

/-- The value `display_venue` gets from the venue priority chain: `journal`,
then `conference`, then `booktitle`, otherwise untouched. -/
theorem venueStep_get (p : Record) :
    rGet (venueStep p) (S "display_venue") =
      if truthyOpt (rGet p (S "journal")) then rGet p (S "journal")
      else if truthyOpt (rGet p (S "conference")) then rGet p (S "conference")
      else if truthyOpt (rGet p (S "booktitle")) then rGet p (S "booktitle")
      else rGet p (S "display_venue") := by
  unfold venueStep
  have step3 : rGet (venueStep.venueStep3 p) (S "display_venue") =
      if truthyOpt (rGet p (S "booktitle")) then rGet p (S "booktitle")
      else rGet p (S "display_venue") := by
    unfold venueStep.venueStep3
    split
    · rename_i b hb
      split
      · rename_i htr
        simp only [truthyOpt, hb, htr, if_true, rGet_rSet_self]
      · rename_i htr
        simp only [truthyOpt, hb, Bool.eq_false_iff.mpr htr, Bool.false_eq_true, if_false]
    · rename_i hb
      simp only [truthyOpt, hb, Bool.false_eq_true, if_false]
  have step2 : rGet (venueStep.venueStep2 p) (S "display_venue") =
      if truthyOpt (rGet p (S "conference")) then rGet p (S "conference")
      else if truthyOpt (rGet p (S "booktitle")) then rGet p (S "booktitle")
      else rGet p (S "display_venue") := by
    unfold venueStep.venueStep2
    split
    · rename_i c hc
      split
      · rename_i htr
        simp only [truthyOpt, hc, htr, if_true, rGet_rSet_self]
      · rename_i htr
        simp only [truthyOpt, hc, Bool.eq_false_iff.mpr htr, Bool.false_eq_true, if_false]
        exact step3
    · rename_i hc
      simp only [truthyOpt, hc, Bool.false_eq_true, if_false]
      exact step3
  split
  · rename_i j hj
    split
    · rename_i htr
      simp only [truthyOpt, hj, htr, if_true, rGet_rSet_self]
    · rename_i htr
      simp only [truthyOpt, hj, Bool.eq_false_iff.mpr htr, Bool.false_eq_true, if_false]
      exact step2
  · rename_i hj
    simp only [truthyOpt, hj, Bool.false_eq_true, if_false]
    exact step2

theorem yearMonthStep_frame (p q : Record) (h : yearMonthStep p = some q)
    (k : List Char) (hk : k ≠ S "year") : rGet q k = rGet p k := by
  unfold yearMonthStep at h
  split at h
  · split at h
    · split at h
      · rw [← Option.some_inj.mp h]
        exact rGet_rSet_ne _ _ _ _ hk
      · rw [← Option.some_inj.mp h]
    · exact absurd h (by simp)
    · rw [← Option.some_inj.mp h]
  · rw [← Option.some_inj.mp h]

theorem urlStepDoi_frame (p : Record) (k : List Char) (hk : k ≠ S "url") :
    rGet (urlStepDoi p) k = rGet p k := by
  unfold urlStepDoi
  split
  · split
    · exact rGet_rSet_ne _ _ _ _ hk
    · rfl
  · rfl

theorem urlStepArxiv_frame (p : Record) (k : List Char) (hk : k ≠ S "url") :
    rGet (urlStepArxiv p) k = rGet p k := by
  unfold urlStepArxiv
  split
  · split
    · exact rGet_rSet_ne _ _ _ _ hk
    · rfl
  · rfl

theorem urlSteps_frame (p : Record) (k : List Char) (hk : k ≠ S "url") :
    rGet (urlSteps p) k = rGet p k := by
  unfold urlSteps
  rw [urlStepArxiv_frame _ k hk, urlStepDoi_frame _ k hk]

theorem char_ofNat_toNat_small (n : Nat) (h : n < 55296) : (Char.ofNat n).toNat = n := by
  rw [Char.ofNat, dif_pos (Or.inl h)]
  rfl

theorem toLowerChar_idem (c : Char) : toLowerChar (toLowerChar c) = toLowerChar c := by
  unfold toLowerChar
  split
  · rename_i h
    simp only [Bool.and_eq_true, decide_eq_true_eq] at h
    have hv : (Char.ofNat (c.toNat + 32)).toNat = c.toNat + 32 :=
      char_ofNat_toNat_small _ (by omega)
    rw [if_neg]
    simp only [hv, Bool.and_eq_true, decide_eq_true_eq]
    omega
  · rfl

theorem toLowerList_idem (s : List Char) : toLowerList (toLowerList s) = toLowerList s := by
  unfold toLowerList
  rw [List.map_map]
  exact List.map_congr_left fun c _ => toLowerChar_idem c

/-- `urlStepDoi` fires exactly when `doi` is truthy and `url` is not. -/
theorem urlStepDoi_set (p : Record) (d : JVal) (hd : rGet p (S "doi") = some d)
    (ht : jsTruthy d = true) (hu : truthyOpt (rGet p (S "url")) = false) :
    urlStepDoi p = rSet p (S "url") (.vStr (S "https://doi.org/" ++ jsToString d)) := by
  unfold urlStepDoi
  simp [hd, ht, hu]

theorem urlStepDoi_skip_url (p : Record) (hu : truthyOpt (rGet p (S "url")) = true) :
    urlStepDoi p = p := by
  unfold urlStepDoi
  split
  · simp [hu]
  · rfl

theorem urlStepDoi_skip_falsy (p : Record) (hd : truthyOpt (rGet p (S "doi")) = false) :
    urlStepDoi p = p := by
  unfold urlStepDoi
  split
  · rename_i d hd2
    rw [hd2] at hd
    simp only [truthyOpt] at hd
    simp [hd]
  · rfl

theorem urlStepArxiv_set (p : Record) (a : JVal) (ha : rGet p (S "arxiv") = some a)
    (ht : jsTruthy a = true) (hu : truthyOpt (rGet p (S "url")) = false) :
    urlStepArxiv p = rSet p (S "url") (.vStr (S "https://arxiv.org/abs/" ++ jsToString a)) := by
  unfold urlStepArxiv
  simp [ha, ht, hu]

theorem urlStepArxiv_skip_url (p : Record) (hu : truthyOpt (rGet p (S "url")) = true) :
    urlStepArxiv p = p := by
  unfold urlStepArxiv
  split
  · simp [hu]
  · rfl

/-- `yearMonthStep` writes the first `\b(19|20)\d{2}\b` match of a string
month when `year` is falsy. -/
theorem yearMonthStep_set (p : Record) (m : List Char) (y : Nat)
    (hy : truthyOpt (rGet p (S "year")) = false)
    (hm : rGet p (S "month") = some (.vStr m))
    (hmatch : firstYearMatch m = some y) :
    yearMonthStep p = some (rSet p (S "year") (.vNum y)) := by
  have hm0 : m ≠ [] := by
    intro hnil
    subst hnil
    simp [firstYearMatch, firstYearMatchGo] at hmatch
  have hm1 : m.isEmpty = false := by
    cases m
    · exact absurd rfl hm0
    · rfl
  have hmt : truthyOpt (some (JVal.vStr m)) = true := by
    simp [truthyOpt, jsTruthy, hm1]
  unfold yearMonthStep
  simp only [hy, hm, hmt, hmatch, Bool.not_false, Bool.true_and, if_true]

/-- A truthy `year` is never overwritten by the month derivation. -/
theorem yearMonthStep_keep (p : Record) (hy : truthyOpt (rGet p (S "year")) = true) :
    yearMonthStep p = some p := by
  unfold yearMonthStep
  simp [hy]

/-- Decomposition of a successful `setComputedFields` run into its steps. -/
theorem setComputedFields_decomp (p q : Record) (h : setComputedFields p = some q) :
    ∃ p2, authorStringStep (displayTitleStep p) = some p2 ∧
      ∃ p4, yearMonthStep (venueStep p2) = some p4 ∧ q = urlSteps p4 := by
  unfold setComputedFields at h
  split at h
  · exact absurd h (by simp)
  · rename_i p2 hp2
    split at h
    · exact absurd h (by simp)
    · rename_i p4 hp4
      exact ⟨p2, hp2, p4, hp4, (Option.some_inj.mp h).symm⟩

theorem setComputedFields_frame (p q : Record) (h : setComputedFields p = some q)
    (k : List Char) (h1 : k ≠ S "display_title") (h2 : k ≠ S "author_string")
    (h3 : k ≠ S "display_venue") (h4 : k ≠ S "year") (h5 : k ≠ S "url") :
    rGet q k = rGet p k := by
  unfold setComputedFields at h
  split at h
  · exact absurd h (by simp)
  · rename_i p2 hp2
    split at h
    · exact absurd h (by simp)
    · rename_i p4 hp4
      rw [← Option.some_inj.mp h]
      rw [urlSteps_frame p4 k h5]
      rw [yearMonthStep_frame (venueStep p2) p4 hp4 k h4]
      rw [venueStep_frame p2 k h3]
      rw [authorStringStep_frame (displayTitleStep p) p2 hp2 k h2]
      rw [displayTitleStep_frame p k h1]

/-!
## Invariants of the field-mapping fold and of the fields table
-/

/-- The record attribute one parsed field writes to. -/
def foldWriteKey (n : List Char) : List Char :=
  match tblGet fieldMappings (toLowerList n) with
  | some our => our
  | none => n

/-- The value one parsed field writes. -/
def foldWriteVal (nv : List Char × List Char) : JVal :=
  match tblGet fieldMappings (toLowerList nv.1) with
  | some our => processField our nv.2
  | none => .vStr nv.2

theorem applyField_eq (r : Record) (nv : List Char × List Char) :
    applyField r nv = rSet r (foldWriteKey nv.1) (foldWriteVal nv) := by
  unfold applyField foldWriteKey foldWriteVal
  cases h : tblGet fieldMappings (toLowerList nv.1) <;> simp [h]

theorem applyField_frame (r : Record) (nv : List Char × List Char) (k : List Char)
    (hk : k ≠ foldWriteKey nv.1) : rGet (applyField r nv) k = rGet r k := by
  rw [applyField_eq]
  exact rGet_rSet_ne _ _ _ _ hk

theorem foldl_applyField_frame (fields : List (List Char × List Char)) (base : Record)
    (k : List Char) (h : ∀ nv ∈ fields, k ≠ foldWriteKey nv.1) :
    rGet (fields.foldl applyField base) k = rGet base k := by
  induction fields generalizing base with
  | nil => rfl
  | cons nv rest ih =>
    rw [List.foldl_cons]
    rw [ih (applyField base nv) fun q hq => h q (List.mem_cons_of_mem nv hq)]
    exact applyField_frame base nv k (h nv (List.mem_cons_self nv rest))

theorem foldl_applyField_last (l1 l2 : List (List Char × List Char))
    (nv : List Char × List Char) (base : Record)
    (h2 : ∀ q ∈ l2, foldWriteKey nv.1 ≠ foldWriteKey q.1) :
    rGet ((l1 ++ nv :: l2).foldl applyField base) (foldWriteKey nv.1) =
      some (foldWriteVal nv) := by
  rw [List.foldl_append, List.foldl_cons]
  rw [foldl_applyField_frame l2 _ _ h2]
  rw [applyField_eq]
  exact rGet_rSet_self _ _ _

/-- Keys of a fields table. -/
def tblKeys (tbl : List (List Char × List Char)) : List (List Char) := tbl.map (·.1)

theorem tblKeys_jsObjSet (tbl : List (List Char × List Char)) (k v : List Char) :
    tblKeys (jsObjSet tbl k v) =
      if (tbl.any fun p => p.1 == k) = true then tblKeys tbl else tblKeys tbl ++ [k] := by
  unfold jsObjSet tblKeys
  split
  · rename_i h
    simp only [if_pos h, List.map_map]
    refine List.map_congr_left fun q _ => ?_
    by_cases hq : (q.1 == k) = true
    · simp only [Function.comp_apply, if_pos hq]
      exact (beq_iff_eq.mp hq).symm
    · simp only [Function.comp_apply, if_neg hq]
  · rename_i h
    simp [if_neg h]

theorem tblKeys_jsObjSet_nodup (tbl : List (List Char × List Char)) (k v : List Char)
    (h : (tblKeys tbl).Nodup) : (tblKeys (jsObjSet tbl k v)).Nodup := by
  rw [tblKeys_jsObjSet]
  split
  · exact h
  · rename_i hany
    rw [List.nodup_append]
    refine ⟨h, List.nodup_singleton k, ?_⟩
    intro a ha hb
    simp only [List.mem_singleton] at hb
    subst hb
    obtain ⟨q, hq, hqk⟩ := List.mem_map.mp ha
    exact hany (List.any_eq_true.mpr ⟨q, hq, by simp [hqk]⟩)

theorem mem_jsObjSet (tbl : List (List Char × List Char)) (k v : List Char)
    (p : List Char × List Char) (hp : p ∈ jsObjSet tbl k v) : p = (k, v) ∨ p ∈ tbl := by
  unfold jsObjSet at hp
  split at hp
  · obtain ⟨q, hq, hqp⟩ := List.mem_map.mp hp
    by_cases hqk : (q.1 == k) = true
    · rw [if_pos hqk] at hqp
      exact Or.inl hqp.symm
    · rw [if_neg hqk] at hqp
      exact Or.inr (hqp ▸ hq)
  · rcases List.mem_append.mp hp with h | h
    · exact Or.inr h
    · simp only [List.mem_singleton] at h
      exact Or.inl h

theorem parseFields_invariant (content : List Char) :
    (tblKeys (parseFields content)).Nodup ∧
      ∀ p ∈ parseFields content, toLowerList p.1 = p.1 := by
  unfold parseFields
  generalize scanFields content = ms
  have main : ∀ (l : List (List Char × List Char)) (tbl : List (List Char × List Char)),
      (tblKeys tbl).Nodup → (∀ p ∈ tbl, toLowerList p.1 = p.1) →
      (tblKeys (l.foldl (fun tbl nv =>
        jsObjSet tbl (toLowerList nv.1) (cleanFieldValue nv.2)) tbl)).Nodup ∧
      ∀ p ∈ l.foldl (fun tbl nv =>
        jsObjSet tbl (toLowerList nv.1) (cleanFieldValue nv.2)) tbl,
        toLowerList p.1 = p.1 := by
    intro l
    induction l with
    | nil => intro tbl h1 h2; exact ⟨h1, h2⟩
    | cons nv rest ih =>
      intro tbl h1 h2
      rw [List.foldl_cons]
      refine ih _ (tblKeys_jsObjSet_nodup _ _ _ h1) ?_
      intro p hp
      rcases mem_jsObjSet _ _ _ p hp with h | h
      · rw [h]
        exact toLowerList_idem nv.1
      · exact h2 p h
  exact main ms [] (by simp [tblKeys]) (by simp)

theorem tblGet_none_forall (tbl : List (List Char × List Char)) (k : List Char)
    (h : tblGet tbl k = none) : ∀ p ∈ tbl, p.1 ≠ k := by
  unfold tblGet at h
  intro p hp hcon
  rw [Option.map_eq_none'] at h
  rw [List.find?_eq_none] at h
  exact h p hp (by simp [hcon])

theorem tblGet_split (tbl : List (List Char × List Char)) (n v : List Char)
    (hnd : (tblKeys tbl).Nodup) (h : tblGet tbl n = some v) :
    ∃ l1 l2, tbl = l1 ++ (n, v) :: l2 ∧ ∀ p ∈ l2, p.1 ≠ n := by
  unfold tblGet at h
  rw [Option.map_eq_some'] at h
  obtain ⟨p0, hfind, hv⟩ := h
  rw [List.find?_eq_some] at hfind
  obtain ⟨hpred, as, bs, heq, _⟩ := hfind
  have hp0 : p0 = (n, v) := by
    have h1 : p0.1 = n := beq_iff_eq.mp hpred
    have h2 : p0.2 = v := hv
    cases p0
    simp only at h1 h2
    rw [h1, h2]
  subst hp0
  refine ⟨as, bs, heq, ?_⟩
  intro p hp hcon
  rw [heq] at hnd
  unfold tblKeys at hnd
  rw [List.map_append, List.map_cons] at hnd
  have := (List.nodup_append.mp hnd).2.1
  rw [List.nodup_cons] at this
  exact this.1 (hcon ▸ List.mem_map_of_mem (·.1) hp)

theorem tblGet_mem (tbl : List (List Char × List Char)) (k v : List Char)
    (h : tblGet tbl k = some v) : ∃ p ∈ tbl, p.1 = k ∧ p.2 = v := by
  unfold tblGet at h
  rw [Option.map_eq_some'] at h
  obtain ⟨p0, hfind, hv⟩ := h
  rw [List.find?_eq_some] at hfind
  obtain ⟨hpred, as, bs, heq, _⟩ := hfind
  exact ⟨p0, by rw [heq]; simp, beq_iff_eq.mp hpred, hv⟩

theorem rGet_baseRecord_id (e : RawEntry) :
    rGet (baseRecord e) (S "id") = some (.vStr e.key) := by
  unfold baseRecord rGet
  rw [find?_key_cons_eq (S "id", .vStr e.key) _ (S "id")
    (show (S "id" == S "id") = true by decide)]
  rfl

theorem rGet_baseRecord_type (e : RawEntry) :
    rGet (baseRecord e) (S "type") = some (.vStr (mapEntryType e.type)) := by
  unfold baseRecord rGet
  rw [find?_key_cons_ne (S "id", .vStr e.key) _ (S "type")
      (show ¬(S "id" == S "type") = true by decide),
    find?_key_cons_eq (S "type", .vStr (mapEntryType e.type)) _ (S "type")
      (show (S "type" == S "type") = true by decide)]
  rfl

theorem rGet_baseRecord_raw (e : RawEntry) :
    rGet (baseRecord e) (S "raw_bibtex") =
      some (.vStr (S "@" ++ e.type ++ S "\x7b" ++ e.key ++ S ", " ++ e.content ++ S "\x7d")) := by
  unfold baseRecord rGet
  rw [find?_key_cons_ne (S "id", .vStr e.key) _ (S "raw_bibtex")
      (show ¬(S "id" == S "raw_bibtex") = true by decide),
    find?_key_cons_ne (S "type", .vStr (mapEntryType e.type)) _ (S "raw_bibtex")
      (show ¬(S "type" == S "raw_bibtex") = true by decide),
    find?_key_cons_eq (S "raw_bibtex",
      .vStr (S "@" ++ e.type ++ S "\x7b" ++ e.key ++ S ", " ++ e.content ++ S "\x7d")) _
      (S "raw_bibtex") (show (S "raw_bibtex" == S "raw_bibtex") = true by decide)]
  rfl

theorem rGet_baseRecord_other (e : RawEntry) (k : List Char) (h1 : k ≠ S "id")
    (h2 : k ≠ S "type") (h3 : k ≠ S "raw_bibtex") : rGet (baseRecord e) k = none := by
  unfold baseRecord rGet
  rw [find?_key_cons_ne _ _ _ (by simp only [beq_iff_eq]; exact fun hc => h1 hc.symm),
    find?_key_cons_ne _ _ _ (by simp only [beq_iff_eq]; exact fun hc => h2 hc.symm),
    find?_key_cons_ne _ _ _ (by simp only [beq_iff_eq]; exact fun hc => h3 hc.symm)]
  rfl

theorem authorSpecial_frame (fields : List (List Char × List Char)) (r : Record)
    (k : List Char) (hk : k ≠ S "authors") : rGet (authorSpecial fields r) k = rGet r k := by
  unfold authorSpecial
  split
  · split
    · rfl
    · exact rGet_rSet_ne _ _ _ _ hk
  · rfl

theorem keywordsSpecial_frame (fields : List (List Char × List Char)) (r : Record)
    (k : List Char) (hk : k ≠ S "keywords") :
    rGet (keywordsSpecial fields r) k = rGet r k := by
  unfold keywordsSpecial
  split
  · split
    · rfl
    · exact rGet_rSet_ne _ _ _ _ hk
  · rfl

/-!
## Serialization: `toJSON`, `reverseMapType`, `generateBibTeX`
-/

/-- The `typeMapping` inside `reverseMapType` (lines 343-355). -/
def reverseTypeMapping : List (List Char × List Char) := [
  (S "journal", S "article"), (S "conference", S "inproceedings"),
  (S "book_chapter", S "incollection"), (S "book", S "book"),
  (S "thesis", S "phdthesis"), (S "report", S "techreport"),
  (S "other", S "misc"), (S "preprint", S "unpublished"),
  (S "patent", S "patent"), (S "dataset", S "misc"), (S "software", S "misc")]

/-- `reverseMapType` (lines 342-358): lookup with `misc` as catch-all (no
lower-casing on this direction). -/
def reverseMapType (t : List Char) : List Char :=
  match tblGet reverseTypeMapping t with
  | some v => v
  | none => S "misc"

/-- Escaping of `&`, `%`, `#` in string values (lines 372-378). -/
def escapeBib (s : List Char) : List Char :=
  s.flatMap fun c =>
    if c = '&' then ['\\', '&']
    else if c = '%' then ['\\', '%']
    else if c = '#' then ['\\', '#']
    else [c]

/-- `formatFieldForBibTeX` (lines 363-381).  `Array.prototype.join`
stringifies `undefined` elements (from `.name` on a non-object) as empty
strings and objects as `[object Object]`. -/
def formatFieldForBibTeX (fieldName : List Char) (value : JVal) : List Char :=
  match value with
  | .vAuthors l =>
    if fieldName = S "authors" then List.intercalate (S " and ") (l.map fun a => a.name)
    else List.intercalate (S ", ") (l.map fun _ => S "[object Object]")
  | .vStrList l =>
    if fieldName = S "authors" then List.intercalate (S " and ") (l.map fun _ => ([] : List Char))
    else List.intercalate (S ", ") l
  | .vStr s => escapeBib s
  | .vNum n => S (toString n)

/-- The `fields` object built by `toJSON` (lines 330-334): iterate the
mapping table in source order, keeping truthy record attributes. -/
def toJSONFields (p : Record) : List (List Char × List Char) :=
  fieldMappings.foldl (fun acc bo =>
    match rGet p bo.2 with
    | some v => if jsTruthy v then jsObjSet acc bo.1 (formatFieldForBibTeX bo.2 v) else acc
    | none => acc) []

/-- The field lines of `generateBibTeX`: `  f = {v},\n` with no comma on
the last field. -/
def renderFields : List (List Char × List Char) → List Char
  | [] => []
  | [(f, v)] => S "  " ++ f ++ S " = \x7b" ++ v ++ S "\x7d\n"
  | (f, v) :: rest => S "  " ++ f ++ S " = \x7b" ++ v ++ S "\x7d,\n" ++ renderFields rest

/-- `generateBibTeX` (lines 386-399) combined with `toJSON` (lines
322-337). -/
def generateBibTeX (p : Record) : List Char :=
  let et :=
    match rGet p (S "type") with
    | some v => reverseMapType (jsToString v)
    | none => S "misc"
  let key :=
    match rGet p (S "id") with
    | some v => jsToString v
    | none => S "undefined"
  S "@" ++ et ++ S "\x7b" ++ key ++ S ",\n" ++ renderFields (toJSONFields p) ++ S "\x7d"

end BibTeX

namespace BibTeX

/-!
## Claims
-/

theorem jsTruthy_vStr_ne (d : List Char) (h : d ≠ []) : jsTruthy (.vStr d) = true := by
  cases d with
  | nil => exact absurd rfl h
  | cons c t => rfl

theorem jsTruthy_vStr_append (a b : List Char) (h : a ≠ []) :
    jsTruthy (.vStr (a ++ b)) = true := by
  cases a with
  | nil => exact absurd rfl h
  | cons c t => rfl

/-- C2: the claim states that for entries of the documented shape whose
values have at most one level of nested braces, the extractor's body span
extends to the closing brace balancing the entry's opening brace, so that
the field parser recovers every field.  The code's non-greedy body match
stops at the *first* closing brace instead: on the failing input below the
extracted content is `title = \x7bHello` and the field parser recovers no
field at all (neither title nor year). -/
theorem c2_body_truncated_at_first_brace :
    extractEntries (S "@article\x7bkey, title = \x7bHello\x7d, year = \x7b2020\x7d\x7d") =
      [{ type := S "article", key := S "key", content := S "title = \x7bHello" }] ∧
    parseFields (S "title = \x7bHello") = [] := by
  constructor
  · decide
  · decide

/-- C3 (counterexample): a parsed PhD-thesis record with a school field has
no `display_venue` attribute at all, refuting both the claimed
school-formatted fallback and the claim that `displayVenue` is never
absent. -/
theorem c3_counterexample :
    parseBibTeX (S "@phdthesis\x7bk, school = \x7bMIT\x7d\x7d") =
      some [[(S "id", .vStr (S "k")), (S "type", .vStr (S "thesis")),
        (S "raw_bibtex", .vStr (S "@phdthesis\x7bk, school = \x7bMIT\x7d"))]] ∧
    rGet [(S "id", JVal.vStr (S "k")), (S "type", .vStr (S "thesis")),
        (S "raw_bibtex", .vStr (S "@phdthesis\x7bk, school = \x7bMIT\x7d"))]
      (S "display_venue") = none := by
  constructor
  · decide
  · decide

/-- C3 (amended): `setComputedFields` derives `display_venue` by the
priority chain journal > conference > booktitle only — a record with a
truthy journal gets the journal (so journal wins over booktitle), otherwise
conference, otherwise booktitle; when none of the three is truthy,
`display_venue` is left untouched (in particular absent), with no school,
howPublished or "Unknown Venue" fallback. -/
theorem c3_display_venue_priority (p q : Record) (h : setComputedFields p = some q) :
    (truthyOpt (rGet p (S "journal")) = true →
      rGet q (S "display_venue") = rGet p (S "journal")) ∧
    (truthyOpt (rGet p (S "journal")) = false →
      truthyOpt (rGet p (S "conference")) = true →
      rGet q (S "display_venue") = rGet p (S "conference")) ∧
    (truthyOpt (rGet p (S "journal")) = false →
      truthyOpt (rGet p (S "conference")) = false →
      truthyOpt (rGet p (S "booktitle")) = true →
      rGet q (S "display_venue") = rGet p (S "booktitle")) ∧
    (truthyOpt (rGet p (S "journal")) = false →
      truthyOpt (rGet p (S "conference")) = false →
      truthyOpt (rGet p (S "booktitle")) = false →
      rGet q (S "display_venue") = rGet p (S "display_venue")) := by
  obtain ⟨p2, hp2, p4, hp4, hq⟩ := setComputedFields_decomp p q h
  have hj : rGet p2 (S "journal") = rGet p (S "journal") := by
    rw [authorStringStep_frame _ _ hp2 _ (by decide), displayTitleStep_frame _ _ (by decide)]
  have hc : rGet p2 (S "conference") = rGet p (S "conference") := by
    rw [authorStringStep_frame _ _ hp2 _ (by decide), displayTitleStep_frame _ _ (by decide)]
  have hb : rGet p2 (S "booktitle") = rGet p (S "booktitle") := by
    rw [authorStringStep_frame _ _ hp2 _ (by decide), displayTitleStep_frame _ _ (by decide)]
  have hdv : rGet p2 (S "display_venue") = rGet p (S "display_venue") := by
    rw [authorStringStep_frame _ _ hp2 _ (by decide), displayTitleStep_frame _ _ (by decide)]
  have hq_dv : rGet q (S "display_venue") = rGet (venueStep p2) (S "display_venue") := by
    rw [hq, urlSteps_frame _ _ (by decide), yearMonthStep_frame _ _ hp4 _ (by decide)]
  rw [hq_dv, venueStep_get p2, hj, hc, hb, hdv]
  exact ⟨fun h1 => by simp [h1], fun h1 h2 => by simp [h1, h2],
    fun h1 h2 h3 => by simp [h1, h2, h3], fun h1 h2 h3 => by simp [h1, h2, h3]⟩

/-- C3 (witness): a record with journal Nature and booktitle Some Conf gets
display venue Nature. -/
theorem c3_witness :
    rGet [(S "journal", JVal.vStr (S "Nature")), (S "booktitle", .vStr (S "Some Conf")),
        (S "display_venue", .vStr (S "Nature"))] (S "display_venue") =
      rGet [(S "journal", JVal.vStr (S "Nature")), (S "booktitle", .vStr (S "Some Conf"))]
        (S "journal") :=
  (c3_display_venue_priority
    [(S "journal", .vStr (S "Nature")), (S "booktitle", .vStr (S "Some Conf"))]
    [(S "journal", .vStr (S "Nature")), (S "booktitle", .vStr (S "Some Conf")),
      (S "display_venue", .vStr (S "Nature"))] (by decide)).1 (by decide)

/-- C4 (counterexample): parsing an entry with no author field yields a
record whose `authors` attribute is absent, not an empty list. -/
theorem c4_counterexample :
    parseEntry { type := S "article", key := S "k", content := S "" } =
      some [(S "id", .vStr (S "k")), (S "type", .vStr (S "journal")),
        (S "raw_bibtex", .vStr (S "@article\x7bk, \x7d"))] ∧
    rGet [(S "id", JVal.vStr (S "k")), (S "type", .vStr (S "journal")),
        (S "raw_bibtex", .vStr (S "@article\x7bk, \x7d"))] (S "authors") = none := by
  constructor
  · decide
  · decide

/-- C4 (amended): for every entry whose body yields no author field (and no
literal `authors` field either), the produced record carries no `authors`
attribute at all — absent rather than an empty list (and never null). -/
theorem c4_authors_absent (e : RawEntry) (r : Record)
    (hauthor : tblGet (parseFields e.content) (S "author") = none)
    (hauthors : tblGet (parseFields e.content) (S "authors") = none)
    (h : parseEntry e = some r) :
    rGet r (S "authors") = none := by
  unfold parseEntry at h
  have hfold : rGet ((parseFields e.content).foldl applyField (baseRecord e))
      (S "authors") = none := by
    rw [foldl_applyField_frame]
    · exact rGet_baseRecord_other e _ (by decide) (by decide) (by decide)
    · intro nv hnv
      unfold foldWriteKey
      cases hmap : tblGet fieldMappings (toLowerList nv.1) with
      | none =>
        intro hcon
        exact tblGet_none_forall _ _ hauthors nv hnv hcon.symm
      | some our =>
        intro hcon
        obtain ⟨pair, hpair, hk, hv⟩ := tblGet_mem _ _ _ hmap
        have hfact : ∀ q ∈ fieldMappings, q.2 = S "authors" → q.1 = S "author" := by decide
        have hpa : pair.1 = S "author" := hfact pair hpair (hv.trans hcon.symm)
        have hlow := (parseFields_invariant e.content).2 nv hnv
        have hna : nv.1 = S "author" := by
          rw [← hlow, ← hk]
          exact hpa
        exact tblGet_none_forall _ _ hauthor nv hnv hna
  have hspec : rGet (keywordsSpecial (parseFields e.content)
      (authorSpecial (parseFields e.content)
        ((parseFields e.content).foldl applyField (baseRecord e)))) (S "authors") = none := by
    rw [keywordsSpecial_frame _ _ _ (by decide)]
    unfold authorSpecial
    rw [hauthor]
    exact hfold
  rw [setComputedFields_frame _ _ h _ (by decide) (by decide) (by decide) (by decide)
    (by decide)]
  exact hspec

/-- C4 (witness): the amended claim evaluated on a concrete entry with no
author field. -/
theorem c4_witness :
    rGet [(S "id", JVal.vStr (S "k")), (S "type", .vStr (S "journal")),
      (S "raw_bibtex", .vStr (S "@article\x7bk, \x7d"))] (S "authors") = none :=
  c4_authors_absent { type := S "article", key := S "k", content := S "" }
    [(S "id", .vStr (S "k")), (S "type", .vStr (S "journal")),
      (S "raw_bibtex", .vStr (S "@article\x7bk, \x7d"))]
    (by decide) (by decide) (by decide)

end BibTeX

namespace BibTeX

/-- C7 (counterexample): with `doi = "10.1/x"` and `url` already set to the
empty string, computed-field derivation overwrites the url instead of
leaving the already-set value untouched (empty strings are falsy). -/
theorem c7_counterexample :
    setComputedFields [(S "doi", .vStr (S "10.1/x")), (S "url", .vStr (S ""))] =
      some [(S "doi", .vStr (S "10.1/x")), (S "url", .vStr (S "https://doi.org/10.1/x"))] ∧
    rGet [(S "doi", JVal.vStr (S "10.1/x")), (S "url", .vStr (S "https://doi.org/10.1/x"))]
        (S "url") ≠
      rGet [(S "doi", JVal.vStr (S "10.1/x")), (S "url", .vStr (S ""))] (S "url") := by
  constructor
  · decide
  · decide

/-- C7 (amended): after computed-field derivation, a record with a non-empty
string doi and no truthy url gets `url = "https://doi.org/" ++ doi` (the DOI
wins even when arxiv is also present); with a falsy doi, a non-empty string
`arxiv` attribute and no truthy url it gets the arXiv link; a url that is
already set to a truthy value is left untouched.  Empty-string values count
as absent throughout (JavaScript truthiness). -/
theorem c7_url_synthesis (p q : Record) (h : setComputedFields p = some q) :
    (∀ d, rGet p (S "doi") = some (.vStr d) → d ≠ [] →
      truthyOpt (rGet p (S "url")) = false →
      rGet q (S "url") = some (.vStr (S "https://doi.org/" ++ d))) ∧
    (∀ a, truthyOpt (rGet p (S "doi")) = false → rGet p (S "arxiv") = some (.vStr a) →
      a ≠ [] → truthyOpt (rGet p (S "url")) = false →
      rGet q (S "url") = some (.vStr (S "https://arxiv.org/abs/" ++ a))) ∧
    (truthyOpt (rGet p (S "url")) = true → rGet q (S "url") = rGet p (S "url")) := by
  obtain ⟨p2, hp2, p4, hp4, hq⟩ := setComputedFields_decomp p q h
  have hdoi : rGet p4 (S "doi") = rGet p (S "doi") := by
    rw [yearMonthStep_frame _ _ hp4 _ (by decide), venueStep_frame _ _ (by decide),
      authorStringStep_frame _ _ hp2 _ (by decide), displayTitleStep_frame _ _ (by decide)]
  have harx : rGet p4 (S "arxiv") = rGet p (S "arxiv") := by
    rw [yearMonthStep_frame _ _ hp4 _ (by decide), venueStep_frame _ _ (by decide),
      authorStringStep_frame _ _ hp2 _ (by decide), displayTitleStep_frame _ _ (by decide)]
  have hurl : rGet p4 (S "url") = rGet p (S "url") := by
    rw [yearMonthStep_frame _ _ hp4 _ (by decide), venueStep_frame _ _ (by decide),
      authorStringStep_frame _ _ hp2 _ (by decide), displayTitleStep_frame _ _ (by decide)]
  refine ⟨?_, ?_, ?_⟩
  · intro d hd hdne hu
    have hstep : urlStepDoi p4 = rSet p4 (S "url") (.vStr (S "https://doi.org/" ++ d)) := by
      have := urlStepDoi_set p4 (.vStr d) (by rw [hdoi]; exact hd)
        (jsTruthy_vStr_ne d hdne) (by rw [hurl]; exact hu)
      exact this
    rw [hq]
    unfold urlSteps
    rw [hstep, urlStepArxiv_skip_url _ (by
      show truthyOpt (rGet (rSet p4 (S "url") (.vStr (S "https://doi.org/" ++ d))) (S "url")) = true
      rw [rGet_rSet_self]
      exact jsTruthy_vStr_append (S "https://doi.org/") d (by decide))]
    exact rGet_rSet_self _ _ _
  · intro a hdf ha hane hu
    have hskip : urlStepDoi p4 = p4 := urlStepDoi_skip_falsy p4 (by rw [hdoi]; exact hdf)
    have hstep : urlStepArxiv p4 = rSet p4 (S "url") (.vStr (S "https://arxiv.org/abs/" ++ a)) := by
      have := urlStepArxiv_set p4 (.vStr a) (by rw [harx]; exact ha)
        (jsTruthy_vStr_ne a hane) (by rw [hurl]; exact hu)
      exact this
    rw [hq]
    unfold urlSteps
    rw [hskip, hstep]
    exact rGet_rSet_self _ _ _
  · intro hu
    have h1 : urlStepDoi p4 = p4 := urlStepDoi_skip_url p4 (by rw [hurl]; exact hu)
    have h2 : urlStepArxiv p4 = p4 := urlStepArxiv_skip_url p4 (by rw [hurl]; exact hu)
    rw [hq]
    unfold urlSteps
    rw [h1, h2]
    exact hurl

/-- C7 (witness): the DOI link is generated for a record with a doi, an
arxiv id and no url, with the DOI winning. -/
theorem c7_witness :
    rGet [(S "doi", JVal.vStr (S "10.1/x")), (S "arxiv", .vStr (S "2101.0001")),
        (S "url", .vStr (S "https://doi.org/10.1/x"))] (S "url") =
      some (.vStr (S "https://doi.org/10.1/x")) :=
  (c7_url_synthesis [(S "doi", .vStr (S "10.1/x")), (S "arxiv", .vStr (S "2101.0001"))]
      [(S "doi", .vStr (S "10.1/x")), (S "arxiv", .vStr (S "2101.0001")),
        (S "url", .vStr (S "https://doi.org/10.1/x"))]
      (by decide)).1 (S "10.1/x") (by decide)
    (show S "10.1/x" ≠ ([] : List Char) by decide) (by decide)

/-- C10 (counterexample): a record whose year is the empty string (present
but falsy) has that year overwritten by the month-derived year, refuting
the claim that a present year is never changed by the month field. -/
theorem c10_counterexample :
    setComputedFields [(S "year", .vStr (S "")), (S "month", .vStr (S "2020"))] =
      some [(S "year", .vNum 2020), (S "month", .vStr (S "2020"))] ∧
    rGet [(S "year", JVal.vNum 2020), (S "month", .vStr (S "2020"))] (S "year") ≠
      rGet [(S "year", JVal.vStr (S "")), (S "month", .vStr (S "2020"))] (S "year") := by
  constructor
  · decide
  · decide

/-- C10 (amended): when a record has no year attribute and a string month
whose value contains a word-delimited four-digit number starting 19 or 20,
computed-field derivation sets year to the first such number as an integer;
a year that is present and truthy (non-empty, non-zero) is never changed by
the month field.  A present-but-falsy year (e.g. the empty string) is
treated as absent and may be overwritten. -/
theorem c10_year_from_month (p q : Record) (h : setComputedFields p = some q) :
    (∀ m y, rGet p (S "year") = none → rGet p (S "month") = some (.vStr m) →
      firstYearMatch m = some y → rGet q (S "year") = some (.vNum y)) ∧
    (truthyOpt (rGet p (S "year")) = true → rGet q (S "year") = rGet p (S "year")) := by
  obtain ⟨p2, hp2, p4, hp4, hq⟩ := setComputedFields_decomp p q h
  have hy3 : rGet (venueStep p2) (S "year") = rGet p (S "year") := by
    rw [venueStep_frame _ _ (by decide), authorStringStep_frame _ _ hp2 _ (by decide),
      displayTitleStep_frame _ _ (by decide)]
  have hm3 : rGet (venueStep p2) (S "month") = rGet p (S "month") := by
    rw [venueStep_frame _ _ (by decide), authorStringStep_frame _ _ hp2 _ (by decide),
      displayTitleStep_frame _ _ (by decide)]
  have hqy : rGet q (S "year") = rGet p4 (S "year") := by
    rw [hq]
    exact urlSteps_frame _ _ (by decide)
  constructor
  · intro m y hyn hm hmatch
    have hset := yearMonthStep_set (venueStep p2) m y
      (by rw [hy3, hyn]; rfl) (by rw [hm3]; exact hm) hmatch
    have hp4e : p4 = rSet (venueStep p2) (S "year") (.vNum y) := by
      rw [hset] at hp4
      exact (Option.some_inj.mp hp4).symm
    rw [hqy, hp4e]
    exact rGet_rSet_self _ _ _
  · intro hyt
    have hkeep := yearMonthStep_keep (venueStep p2) (by rw [hy3]; exact hyt)
    have hp4e : p4 = venueStep p2 := by
      rw [hkeep] at hp4
      exact (Option.some_inj.mp hp4).symm
    rw [hqy, hp4e, hy3]

/-- C10 (witness): a record with no year and month "January 2020" gets
year 2020. -/
theorem c10_witness :
    rGet [(S "month", JVal.vStr (S "January 2020")), (S "year", .vNum 2020)] (S "year") =
      some (.vNum 2020) :=
  (c10_year_from_month [(S "month", .vStr (S "January 2020"))]
      [(S "month", .vStr (S "January 2020")), (S "year", .vNum 2020)]
      (by decide)).1 (S "January 2020") 2020 (by decide) (by decide) (by decide)

end BibTeX

namespace BibTeX

/-- C6 (counterexample): the field `arxiv_id = \x7bB\x7d` is parsed from the
body and is not in the mapping table, yet the record carries
`arxiv_id = "A"`: the later mapped field `arxiv = \x7bA\x7d` is written onto
the same record attribute, overwriting the passthrough value. -/
theorem c6_counterexample :
    tblGet (parseFields (S "arxiv_id = \x7bB\x7d, arxiv = \x7bA\x7d")) (S "arxiv_id") =
      some (S "B") ∧
    tblGet fieldMappings (S "arxiv_id") = none ∧
    parseEntry ⟨S "misc", S "k", S "arxiv_id = \x7bB\x7d, arxiv = \x7bA\x7d"⟩ =
      some [(S "id", .vStr (S "k")), (S "type", .vStr (S "other")),
        (S "raw_bibtex",
          .vStr (S "@misc\x7bk, arxiv_id = \x7bB\x7d, arxiv = \x7bA\x7d\x7d")),
        (S "arxiv_id", .vStr (S "A"))] ∧
    rGet [(S "id", JVal.vStr (S "k")), (S "type", .vStr (S "other")),
        (S "raw_bibtex",
          .vStr (S "@misc\x7bk, arxiv_id = \x7bB\x7d, arxiv = \x7bA\x7d\x7d")),
        (S "arxiv_id", .vStr (S "A"))] (S "arxiv_id") ≠ some (.vStr (S "B")) := by
  refine ⟨by decide, by decide, by decide, by decide⟩

/-- C6 (amended): a field name parsed from an entry body that is not in the
mapping table is carried unchanged as a string under its (lower-cased) name
and never causes a failure — provided no other field of the same entry is
mapped onto that attribute name, the name is not one of the computed
attributes display_title / author_string / display_venue, and the name is
not the literal `authors` (a truthy unknown `authors` value makes the
author-string derivation throw). -/
theorem c6_unknown_passthrough (e : RawEntry) (r : Record) (n v : List Char)
    (hget : tblGet (parseFields e.content) n = some v)
    (hunmapped : tblGet fieldMappings n = none)
    (hnocollide : ∀ nv ∈ parseFields e.content,
      tblGet fieldMappings (toLowerList nv.1) ≠ some n)
    (h1 : n ≠ S "display_title") (h2 : n ≠ S "author_string")
    (h3 : n ≠ S "display_venue") (h4 : n ≠ S "authors")
    (h : parseEntry e = some r) :
    rGet r n = some (.vStr v) := by
  have hinv := parseFields_invariant e.content
  obtain ⟨p0, hp0mem, hp0k, _⟩ := tblGet_mem _ _ _ hget
  have hlow : toLowerList n = n := by
    rw [← hp0k]
    exact hinv.2 p0 hp0mem
  have hkeyn : foldWriteKey n = n := by
    unfold foldWriteKey
    rw [hlow, hunmapped]
  have hkw : n ≠ S "keywords" := by
    intro hcon
    rw [hcon] at hunmapped
    exact absurd hunmapped (by decide)
  have hyear : n ≠ S "year" := by
    intro hcon
    rw [hcon] at hunmapped
    exact absurd hunmapped (by decide)
  have hurl : n ≠ S "url" := by
    intro hcon
    rw [hcon] at hunmapped
    exact absurd hunmapped (by decide)
  obtain ⟨l1, l2, heq, hl2⟩ := tblGet_split _ _ _ hinv.1 hget
  have hval : foldWriteVal (n, v) = .vStr v := by
    unfold foldWriteVal
    simp only [hlow, hunmapped]
  have hside : ∀ q ∈ l2, foldWriteKey (n, v).1 ≠ foldWriteKey q.1 := by
    intro q hq
    rw [show foldWriteKey (n, v).1 = n from hkeyn]
    unfold foldWriteKey
    cases hmap : tblGet fieldMappings (toLowerList q.1) with
    | none =>
      intro hcon
      exact hl2 q hq hcon.symm
    | some our =>
      intro hcon
      have hqmem : q ∈ parseFields e.content := by
        rw [heq]
        exact List.mem_append_right _ (List.mem_cons_of_mem _ hq)
      exact hnocollide q hqmem (by rw [hmap, hcon])
  have hfold : rGet ((parseFields e.content).foldl applyField (baseRecord e)) n =
      some (.vStr v) := by
    rw [heq]
    have happly := foldl_applyField_last l1 l2 (n, v) (baseRecord e) hside
    rw [show foldWriteKey (n, v).1 = n from hkeyn, hval] at happly
    exact happly
  unfold parseEntry at h
  rw [setComputedFields_frame _ _ h _ h1 h2 h3 hyear hurl,
    keywordsSpecial_frame _ _ _ hkw, authorSpecial_frame _ _ _ h4]
  exact hfold

/-- C6 (witness): a `custom_metric = \x7b42\x7d` field passes through as the
string 42. -/
theorem c6_witness :
    rGet [(S "id", JVal.vStr (S "k")), (S "type", .vStr (S "other")),
        (S "raw_bibtex", .vStr (S "@misc\x7bk, custom_metric = \x7b42\x7d\x7d")),
        (S "custom_metric", .vStr (S "42"))] (S "custom_metric") =
      some (.vStr (S "42")) :=
  c6_unknown_passthrough
    { type := S "misc", key := S "k", content := S "custom_metric = \x7b42\x7d" }
    [(S "id", .vStr (S "k")), (S "type", .vStr (S "other")),
      (S "raw_bibtex", .vStr (S "@misc\x7bk, custom_metric = \x7b42\x7d\x7d")),
      (S "custom_metric", .vStr (S "42"))]
    (S "custom_metric") (S "42") (by decide) (by decide) (by decide) (by decide)
    (by decide) (by decide) (by decide) (by decide)

end BibTeX

namespace BibTeX

/-!
## Structural lemmas about preprocessing and the entry scan
-/

theorem takeWhile_append_stop (p : Char → Bool) (a : List Char) (x : Char) (b : List Char)
    (ha : ∀ c ∈ a, p c = true) (hx : p x = false) :
    (a ++ x :: b).takeWhile p = a := by
  induction a with
  | nil => simp [List.takeWhile_cons, hx]
  | cons c rest ih =>
    rw [List.cons_append, List.takeWhile_cons, ha c (by simp),
      ih fun d hd => ha d (by simp [hd])]
    rfl

theorem dropWhile_append_stop (p : Char → Bool) (a : List Char) (x : Char) (b : List Char)
    (ha : ∀ c ∈ a, p c = true) (hx : p x = false) :
    (a ++ x :: b).dropWhile p = x :: b := by
  induction a with
  | nil => simp [List.dropWhile_cons, hx]
  | cons c rest ih =>
    rw [List.cons_append, List.dropWhile_cons_of_pos (ha c (by simp))]
    exact ih fun d hd => ha d (by simp [hd])

theorem dropWhile_id_of_head (p : Char → Bool) (s : List Char)
    (h : ∀ c, s.head? = some c → p c = false) : s.dropWhile p = s := by
  cases s with
  | nil => rfl
  | cons c rest => rw [List.dropWhile_cons_of_neg (by simp [h c rfl])]

theorem splitAtFirst_none_mem (t : Char) (s : List Char) (h : splitAtFirst t s = none) :
    t ∉ s := by
  induction s with
  | nil => simp
  | cons c rest ih =>
    intro hmem
    by_cases hc : c = t
    · simp [splitAtFirst, hc] at h
    · simp only [splitAtFirst, if_neg hc] at h
      rcases List.mem_cons.mp hmem with h1 | h1
      · exact hc h1.symm
      · cases hsp : splitAtFirst t rest with
        | none => exact ih hsp h1
        | some p => rw [hsp] at h; simp at h

theorem splitAtFirst_app_left (t : Char) (a b x y : List Char)
    (h : splitAtFirst t a = some (x, y)) :
    splitAtFirst t (a ++ b) = some (x, y ++ b) := by
  obtain ⟨heq, hmem⟩ := splitAtFirst_eq t a x y h
  rw [heq, List.append_assoc, List.cons_append]
  exact splitAtFirst_append t x (y ++ b) hmem

theorem mem_trimEndList (c : Char) (s : List Char) (h : c ∈ trimEndList s) : c ∈ s := by
  unfold trimEndList at h
  rw [List.mem_reverse] at h
  have := (List.dropWhile_sublist (l := s.reverse) (p := isSpace)).mem h
  rwa [List.mem_reverse] at this

theorem mem_trimList (c : Char) (s : List Char) (h : c ∈ trimList s) : c ∈ s := by
  unfold trimList at h
  exact (List.dropWhile_sublist (l := s) (p := isSpace)).mem (mem_trimEndList c _ h)

theorem trimEndList_id (s : List Char) (h : ∀ c, s.getLast? = some c → isSpace c = false) :
    trimEndList s = s := by
  unfold trimEndList
  rw [dropWhile_id_of_head isSpace s.reverse, List.reverse_reverse]
  intro c hc
  exact h c (by rwa [← List.head?_reverse])

theorem trimList_id (s : List Char) (h1 : ∀ c, s.head? = some c → isSpace c = false)
    (h2 : ∀ c, s.getLast? = some c → isSpace c = false) : trimList s = s := by
  unfold trimList
  rw [dropWhile_id_of_head isSpace s h1]
  exact trimEndList_id s h2

/-- `stripComments` is the identity on `%`-free text. -/
theorem stripComments_id (s : List Char) (h : '%' ∉ s) : stripComments s = s := by
  unfold stripComments
  induction s with
  | nil => rfl
  | cons c rest ih =>
    have hc : ¬c = '%' := fun hcon => h (by simp [hcon])
    have hr : '%' ∉ rest := fun hcon => h (by simp [hcon])
    simp only [List.length_cons, stripCommentsF, if_neg hc]
    exact congrArg _ (ih hr)

/-- Absence of blank-line patterns: after every newline, the following
whitespace run contains no further newline. -/
def noBlank : List Char → Bool
  | [] => true
  | c :: rest =>
    if c = '\n' then !(decide ('\n' ∈ rest.takeWhile isSpace)) && noBlank rest
    else noBlank rest

theorem noBlank_cons_nl (rest : List Char) :
    noBlank ('\n' :: rest) = (!(decide ('\n' ∈ rest.takeWhile isSpace)) && noBlank rest) := by
  simp [noBlank]

theorem noBlank_cons_other (c : Char) (rest : List Char) (h : ¬c = '\n') :
    noBlank (c :: rest) = noBlank rest := by
  simp [noBlank, h]

theorem noBlank_of_no_nl (s : List Char) (h : '\n' ∉ s) : noBlank s = true := by
  induction s with
  | nil => rfl
  | cons c rest ih =>
    have hc : ¬c = '\n' := fun hcon => h (by simp [hcon])
    have hr : '\n' ∉ rest := fun hcon => h (by simp [hcon])
    simp only [noBlank, if_neg hc]
    exact ih hr

theorem noBlank_append_no_nl (xs ys : List Char) (hx : '\n' ∉ xs)
    (hy : noBlank ys = true) : noBlank (xs ++ ys) = true := by
  induction xs with
  | nil => exact hy
  | cons c rest ih =>
    have hc : ¬c = '\n' := fun hcon => hx (by simp [hcon])
    have hr : '\n' ∉ rest := fun hcon => hx (by simp [hcon])
    rw [List.cons_append]
    simp only [noBlank, if_neg hc]
    exact ih hr

/-- `collapseBlank` is the identity on text without blank-line patterns. -/
theorem collapseBlank_id (s : List Char) (h : noBlank s = true) : collapseBlank s = s := by
  unfold collapseBlank
  induction s with
  | nil => rfl
  | cons c rest ih =>
    by_cases hc : c = '\n'
    · subst hc
      rw [noBlank_cons_nl] at h
      simp only [Bool.and_eq_true, Bool.not_eq_true', decide_eq_false_iff_not] at h
      simp only [List.length_cons, collapseBlankF, if_pos rfl, if_neg h.1]
      exact congrArg _ (ih h.2)
    · rw [noBlank_cons_other c rest hc] at h
      simp only [List.length_cons, collapseBlankF, if_neg hc]
      exact congrArg _ (ih h)

end BibTeX

namespace BibTeX

theorem scanEntriesF_skip (s t : List Char) (hs : '@' ∉ s) :
    ∀ fuel, (s ++ t).length ≤ fuel → scanEntriesF fuel (s ++ t) = scanEntries t := by
  induction s with
  | nil =>
    intro fuel hf
    exact scanEntriesF_eq fuel t (by simpa using hf)
  | cons c rest ih =>
    intro fuel hf
    match fuel with
    | 0 => simp at hf
    | f + 1 =>
      have hc : ¬c = '@' := fun hcon => hs (by simp [hcon])
      rw [List.cons_append]
      simp only [scanEntriesF, if_neg hc]
      refine ih (fun hcon => hs (by simp [hcon])) f ?_
      simp only [List.cons_append, List.length_cons] at hf
      omega

/-- Decomposition of an entry body at its first closing brace: the part the
lazy regex captures and the unconsumed leftover (which carries the brace
when there is one). -/
def brSplit (B : List Char) : List Char × List Char :=
  match splitAtFirst '}' B with
  | some (a, b) => (a, b ++ ['}'])
  | none => (B, [])

theorem brSplit_fst_no_brace (B : List Char) : '}' ∉ (brSplit B).1 := by
  unfold brSplit
  cases hs : splitAtFirst '}' B with
  | none => exact splitAtFirst_none_mem '}' B hs
  | some p => exact (splitAtFirst_eq '}' B p.1 p.2 (by rw [hs])).2

theorem brSplit_snd_no_at (B : List Char) (h : '@' ∉ B) : '@' ∉ (brSplit B).2 := by
  unfold brSplit
  cases hs : splitAtFirst '}' B with
  | none => simp
  | some p =>
    obtain ⟨heq, _⟩ := splitAtFirst_eq '}' B p.1 p.2 (by rw [hs])
    intro hmem
    rcases List.mem_append.mp hmem with h1 | h1
    · exact h (by rw [heq]; simp [h1])
    · simp at h1

theorem keyCapture_mem (kpart : List Char) (c : Char) (h : c ∈ keyCapture kpart) :
    c ∈ kpart := by
  unfold keyCapture at h
  split at h
  · exact (List.drop_sublist _ _).mem h
  · exact (List.dropWhile_sublist (l := kpart) (p := isSpace)).mem h

theorem keyCapture_ne_nil (kpart : List Char) (h : kpart ≠ []) : keyCapture kpart ≠ [] := by
  unfold keyCapture
  split
  · rename_i hp
    have hlen : kpart.length ≠ 0 := fun hcon => h (List.length_eq_zero.mp hcon)
    intro hcon
    have := congrArg List.length hcon
    simp only [List.length_drop, List.length_nil] at this
    omega
  · rename_i hp
    exact fun hcon => hp (by rw [hcon]; rfl)

theorem dropWhile_head_not (p : Char → Bool) (l : List Char) :
    ∀ c, (l.dropWhile p).head? = some c → p c = false := by
  induction l with
  | nil => intro c hc; simp at hc
  | cons a rest ih =>
    intro c hc
    by_cases ha : p a
    · rw [List.dropWhile_cons_of_pos ha] at hc
      exact ih c hc
    · rw [List.dropWhile_cons_of_neg ha] at hc
      simp only [List.head?_cons, Option.some_inj] at hc
      rw [← hc]
      exact Bool.eq_false_iff.mpr ha

theorem keyCapture_idem (kpart : List Char) :
    keyCapture (keyCapture kpart) = keyCapture kpart := by
  by_cases hp : (kpart.dropWhile isSpace).isEmpty
  · have hall : ∀ c ∈ kpart, isSpace c = true := by
      rw [← List.dropWhile_eq_nil_iff (p := isSpace)]
      exact List.isEmpty_iff.mp hp
    have hcap : keyCapture kpart = kpart.drop (kpart.length - 1) := by
      unfold keyCapture
      rw [if_pos hp]
    rw [hcap]
    by_cases hnil : kpart = []
    · subst hnil
      rfl
    · have hdall : ∀ c ∈ kpart.drop (kpart.length - 1), isSpace c = true :=
        fun c hc => hall c ((List.drop_sublist _ _).mem hc)
      have hdlen : (kpart.drop (kpart.length - 1)).length = 1 := by
        rw [List.length_drop]
        have : kpart.length ≠ 0 := fun hcon => hnil (List.length_eq_zero.mp hcon)
        omega
      unfold keyCapture
      rw [if_pos (by rw [List.isEmpty_iff, List.dropWhile_eq_nil_iff]; exact hdall)]
      rw [hdlen]
      simp
  · have hcap : keyCapture kpart = kpart.dropWhile isSpace := by
      unfold keyCapture
      rw [if_neg hp]
    rw [hcap]
    have hid : (kpart.dropWhile isSpace).dropWhile isSpace = kpart.dropWhile isSpace :=
      dropWhile_id_of_head isSpace _ (dropWhile_head_not isSpace kpart)
    unfold keyCapture
    rw [hid, if_neg hp]

/-- Shape of any successful entry-regex attempt. -/
theorem tryEntryAt_shape (s : List Char) (e : RawEntry) (r : List Char)
    (h : tryEntryAt s = some (e, r)) :
    ∃ kpart cpart, e.key = keyCapture kpart ∧ e.content = trimList cpart ∧
      ',' ∉ kpart ∧ kpart ≠ [] ∧ '}' ∉ cpart := by
  unfold tryEntryAt at h
  split at h
  · exact absurd h (by simp)
  · split at h
    · rename_i t hm
      unfold entryAfterBrace at h
      split at h
      · exact absurd h (by simp)
      · rename_i kpart u hsplit
        split at h
        · exact absurd h (by simp)
        · rename_i hne
          split at h
          · exact absurd h (by simp)
          · rename_i cpart rest hsplit2
            simp only [Option.some_inj, Prod.mk.injEq] at h
            refine ⟨kpart, cpart, ?_, ?_, ?_, ?_, ?_⟩
            · rw [← h.1]
            · rw [← h.1]
            · exact (splitAtFirst_eq ',' t kpart u hsplit).2
            · exact fun hcon => hne (by rw [hcon]; rfl)
            · exact (splitAtFirst_eq '}' u cpart rest hsplit2).2
    · exact absurd h (by simp)

/-- Invariant of every extracted entry: the captured content contains no
closing brace, and the key is a stable non-empty comma-free capture. -/
theorem scanEntriesF_inv :
    ∀ fuel s e, e ∈ scanEntriesF fuel s →
      '}' ∉ e.content ∧ ',' ∉ e.key ∧ e.key ≠ [] ∧ keyCapture e.key = e.key := by
  intro fuel
  induction fuel with
  | zero => intro s e he; simp [scanEntriesF] at he
  | succ f ih =>
    intro s e he
    match s with
    | [] => simp [scanEntriesF] at he
    | c :: rest =>
      simp only [scanEntriesF] at he
      by_cases hc : c = '@'
      · rw [if_pos hc] at he
        cases ht : tryEntryAt rest with
        | none =>
          rw [ht] at he
          exact ih rest e he
        | some p =>
          rw [ht] at he
          rcases List.mem_cons.mp he with h1 | h1
          · subst h1
            obtain ⟨kpart, cpart, hk, hcnt, hkc, hkne, hcb⟩ :=
              tryEntryAt_shape rest p.1 p.2 (by rw [ht])
            refine ⟨?_, ?_, ?_, ?_⟩
            · rw [hcnt]
              exact fun hmem => hcb (mem_trimList _ _ hmem)
            · rw [hk]
              exact fun hmem => hkc (keyCapture_mem _ _ hmem)
            · rw [hk]
              exact keyCapture_ne_nil _ hkne
            · rw [hk]
              exact keyCapture_idem kpart
          · exact ih p.2 e h1
      · rw [if_neg hc] at he
        exact ih rest e he

theorem extractEntries_inv (s : List Char) (e : RawEntry) (he : e ∈ extractEntries s) :
    '}' ∉ e.content ∧ ',' ∉ e.key ∧ e.key ≠ [] ∧ keyCapture e.key = e.key :=
  scanEntriesF_inv _ _ e he

end BibTeX

namespace BibTeX

/-- Behavior of `entryAfterBrace` on a well-shaped tail. -/
theorem entryAfterBrace_render (T K B z : List Char) (hK : K ≠ []) (hKc : ',' ∉ K) :
    entryAfterBrace T (K ++ ',' :: (B ++ '}' :: z)) =
      some ({ type := T, key := keyCapture K, content := trimList (brSplit B).1 },
        (brSplit B).2 ++ z) := by
  unfold entryAfterBrace
  rw [splitAtFirst_append ',' K _ hKc]
  show (if K.isEmpty = true then none
    else match splitAtFirst '}' (B ++ '}' :: z) with
      | none => none
      | some (cpart, rest) =>
        some (({ type := T, key := keyCapture K, content := trimList cpart } : RawEntry),
          rest)) =
    some ({ type := T, key := keyCapture K, content := trimList (brSplit B).1 },
      (brSplit B).2 ++ z)
  rw [if_neg (by rw [List.isEmpty_iff]; exact hK)]
  cases hs : splitAtFirst '}' B with
  | some p =>
    obtain ⟨a, b⟩ := p
    rw [splitAtFirst_app_left '}' B ('}' :: z) a b (by rw [hs])]
    show some (({ type := T, key := keyCapture K, content := trimList a } : RawEntry),
        b ++ '}' :: z) =
      some ({ type := T, key := keyCapture K, content := trimList (brSplit B).1 },
        (brSplit B).2 ++ z)
    unfold brSplit
    rw [hs]
    show _ = some (({ type := T, key := keyCapture K, content := trimList a } : RawEntry),
      (b ++ ['}']) ++ z)
    rw [List.append_assoc]
    rfl
  | none =>
    rw [splitAtFirst_append '}' B z (splitAtFirst_none_mem '}' B hs)]
    show some (({ type := T, key := keyCapture K, content := trimList B } : RawEntry), z) =
      some ({ type := T, key := keyCapture K, content := trimList (brSplit B).1 },
        (brSplit B).2 ++ z)
    unfold brSplit
    rw [hs]
    rfl

/-- Behavior of the entry regex on a well-shaped prefix: the body capture
ends at the first closing brace after the comma. -/
theorem tryEntryAt_render (T K B z : List Char) (hT : T ≠ [])
    (hTw : ∀ c ∈ T, isWordChar c = true) (hK : K ≠ []) (hKc : ',' ∉ K) :
    tryEntryAt (T ++ '{' :: (K ++ ',' :: (B ++ '}' :: z))) =
      some ({ type := T, key := keyCapture K, content := trimList (brSplit B).1 },
        (brSplit B).2 ++ z) := by
  have h1 : (T ++ '{' :: (K ++ ',' :: (B ++ '}' :: z))).takeWhile isWordChar = T :=
    takeWhile_append_stop _ T '{' _ hTw (by decide)
  have h2 : (T ++ '{' :: (K ++ ',' :: (B ++ '}' :: z))).dropWhile isWordChar =
      '{' :: (K ++ ',' :: (B ++ '}' :: z)) :=
    dropWhile_append_stop _ T '{' _ hTw (by decide)
  unfold tryEntryAt
  rw [h1, if_neg (by rw [List.isEmpty_iff]; exact hT), h2,
    List.dropWhile_cons_of_neg (by decide)]
  exact entryAfterBrace_render T K B z hK hKc

/-!
## No field survives extraction: contents are brace-free, fields need braces
-/

theorem takeBalanced1F_none (fuel : Nat) (s : List Char) (h : '}' ∉ s) :
    takeBalanced1F fuel s = none := by
  match fuel with
  | 0 => rfl
  | f + 1 =>
    unfold takeBalanced1F
    split
    · rename_i rest hds
      exfalso
      exact h ((List.dropWhile_sublist (l := s) (p := notBrace)).mem (by rw [hds]; simp))
    · rename_i t hds
      have ht : '}' ∉ t := fun hmem =>
        h ((List.dropWhile_sublist (l := s) (p := notBrace)).mem (by rw [hds]; simp [hmem]))
      split
      · rename_i u hds2
        exfalso
        exact ht ((List.dropWhile_sublist (l := t) (p := notBrace)).mem (by rw [hds2]; simp))
      · rfl
    · rfl

theorem tryFieldAt_none (s : List Char) (h : '}' ∉ s) : tryFieldAt s = none := by
  unfold tryFieldAt
  split
  · rfl
  · split
    · rename_i s2 hm
      split
      · rename_i s3 hm2
        have hs3 : '}' ∉ s3 := by
          intro hmem
          have h1 : '}' ∈ s2 :=
            (List.dropWhile_sublist (l := s2) (p := isSpace)).mem (by rw [hm2]; simp [hmem])
          have h2 : '}' ∈ (s.dropWhile isWordChar).dropWhile isSpace := by
            rw [hm]
            simp [h1]
          exact h ((List.dropWhile_sublist (l := s) (p := isWordChar)).mem
            ((List.dropWhile_sublist (l := s.dropWhile isWordChar) (p := isSpace)).mem h2))
        unfold takeBalanced1
        rw [takeBalanced1F_none _ _ hs3]
      · rfl
    · rfl

end BibTeX

namespace BibTeX

theorem scanFieldsF_nil (fuel : Nat) : ∀ s : List Char, '}' ∉ s → scanFieldsF fuel s = [] := by
  induction fuel with
  | zero => intro s _; rfl
  | succ f ih =>
    intro s h
    match s with
    | [] => rfl
    | c :: rest =>
      have hr : '}' ∉ rest := fun hmem => h (by simp [hmem])
      simp only [scanFieldsF]
      by_cases hw : isWordChar c
      · rw [if_pos hw, tryFieldAt_none _ h]
        exact ih rest hr
      · rw [if_neg hw]
        exact ih rest hr

theorem parseFields_nil (content : List Char) (h : '}' ∉ content) :
    parseFields content = [] := by
  unfold parseFields scanFields
  rw [scanFieldsF_nil _ _ h]
  rfl

theorem rErase_baseRecord (e : RawEntry) :
    rErase (baseRecord e) (S "display_title") = baseRecord e := by
  have h1 : (S "id" == S "display_title") = false := by decide
  have h2 : (S "type" == S "display_title") = false := by decide
  have h3 : (S "raw_bibtex" == S "display_title") = false := by decide
  simp [rErase, baseRecord, List.filter_cons, h1, h2, h3]

/-- A record carrying none of the attributes the computed-field pass reads
passes through `setComputedFields` unchanged. -/
theorem setComputedFields_inert (p : Record)
    (ht : rGet p (S "title") = none) (herase : rErase p (S "display_title") = p)
    (hau : rGet p (S "authors") = none) (hj : rGet p (S "journal") = none)
    (hc : rGet p (S "conference") = none) (hb : rGet p (S "booktitle") = none)
    (hm : rGet p (S "month") = none) (hd : rGet p (S "doi") = none)
    (ha : rGet p (S "arxiv") = none) :
    setComputedFields p = some p := by
  have h1 : displayTitleStep p = p := by
    unfold displayTitleStep
    rw [ht]
    exact herase
  have h2 : authorStringStep p = some p := by
    unfold authorStringStep
    rw [hau]
  have h3 : venueStep p = p := by
    unfold venueStep
    rw [hj]
    unfold venueStep.venueStep2
    rw [hc]
    unfold venueStep.venueStep3
    rw [hb]
  have h4 : yearMonthStep p = some p := by
    unfold yearMonthStep
    rw [hm]
    simp [truthyOpt]
  have h5 : urlSteps p = p := by
    unfold urlSteps urlStepArxiv urlStepDoi
    rw [hd, ha]
  unfold setComputedFields
  rw [h1, h2]
  show (match yearMonthStep (venueStep p) with
    | none => none
    | some p4 => some (urlSteps p4)) = some p
  rw [h3, h4]
  show some (urlSteps p) = some p
  rw [h5]

/-- Every entry the extractor can produce parses to its base record: the
truncated content contains no closing brace, so no field is ever
recovered. -/
theorem parseEntry_extracted (e : RawEntry) (h : '}' ∉ e.content) :
    parseEntry e = some (baseRecord e) := by
  unfold parseEntry
  rw [parseFields_nil _ h]
  show setComputedFields (baseRecord e) = some (baseRecord e)
  exact setComputedFields_inert _
    (rGet_baseRecord_other e _ (by decide) (by decide) (by decide))
    (rErase_baseRecord e)
    (rGet_baseRecord_other e _ (by decide) (by decide) (by decide))
    (rGet_baseRecord_other e _ (by decide) (by decide) (by decide))
    (rGet_baseRecord_other e _ (by decide) (by decide) (by decide))
    (rGet_baseRecord_other e _ (by decide) (by decide) (by decide))
    (rGet_baseRecord_other e _ (by decide) (by decide) (by decide))
    (rGet_baseRecord_other e _ (by decide) (by decide) (by decide))
    (rGet_baseRecord_other e _ (by decide) (by decide) (by decide))

theorem mapM_parseEntry (l : List RawEntry) (h : ∀ e ∈ l, '}' ∉ e.content) :
    l.mapM parseEntry = some (l.map baseRecord) := by
  induction l with
  | nil => rfl
  | cons e rest ih =>
    rw [List.mapM_cons, parseEntry_extracted e (h e (by simp)),
      ih fun x hx => h x (by simp [hx])]
    rfl

/-- `parseBibTeX` is total and every produced record is the base record of
its extracted entry (id, mapped type, reconstructed raw markup — nothing
else). -/
theorem parseBibTeX_eq_map (s : List Char) :
    parseBibTeX s = some ((extractEntries s).map baseRecord) := by
  unfold parseBibTeX
  exact mapM_parseEntry _ fun e he => (extractEntries_inv s e he).1

end BibTeX

namespace BibTeX

/-!
## Well-formed documents: rendering and extraction
-/

/-- Whether a key's first character is a non-space (so that the regex key
capture returns it unchanged). -/
def headNotSpace : List Char → Bool
  | [] => true
  | c :: _ => !isSpace c

structure WFEntry where
  etype : List Char
  ekey : List Char
  body : List Char
  deriving DecidableEq, Repr

/-- The concrete text of a well-formed entry,
`@type\x7bkey, body\x7d` without the inner spacing. -/
def WFEntry.render (e : WFEntry) : List Char :=
  '@' :: (e.etype ++ '{' :: (e.ekey ++ ',' :: (e.body ++ ['}'])))

/-- Well-formedness of one entry: a non-empty word-character type, a
non-empty comma-free key starting with a non-space and free of the
scan-relevant special characters, and a body free of `@`, `%` and
newlines. -/
def WFEntry.ok (e : WFEntry) : Prop :=
  e.etype ≠ [] ∧ (∀ c ∈ e.etype, isWordChar c = true) ∧
  e.ekey ≠ [] ∧ ',' ∉ e.ekey ∧ '@' ∉ e.ekey ∧ '%' ∉ e.ekey ∧
  '\n' ∉ e.ekey ∧ '\r' ∉ e.ekey ∧ headNotSpace e.ekey = true ∧
  '@' ∉ e.body ∧ '%' ∉ e.body ∧ '\n' ∉ e.body ∧ '\r' ∉ e.body

instance (e : WFEntry) : Decidable e.ok := by
  unfold WFEntry.ok
  infer_instance

/-- The raw entry the extractor produces from a well-formed entry: the
content is the body truncated at its first closing brace, trimmed. -/
def extractedOf (e : WFEntry) : RawEntry :=
  { type := e.etype, key := e.ekey, content := trimList (brSplit e.body).1 }

/-- A document: well-formed entries separated by single spaces. -/
def renderDoc : List WFEntry → List Char
  | [] => []
  | [e] => e.render
  | e :: l => e.render ++ ' ' :: renderDoc l

theorem keyCapture_of_head (K : List Char) (h1 : K ≠ []) (h2 : headNotSpace K = true) :
    keyCapture K = K := by
  have hdrop : K.dropWhile isSpace = K := by
    apply dropWhile_id_of_head
    intro c hc
    match K, hc with
    | k :: rest, hc =>
      simp only [List.head?_cons, Option.some_inj] at hc
      subst hc
      simpa [headNotSpace] using h2
  unfold keyCapture
  rw [hdrop, if_neg (by rw [List.isEmpty_iff]; exact h1)]

theorem render_append (e : WFEntry) (z : List Char) :
    e.render ++ z = '@' :: (e.etype ++ '{' :: (e.ekey ++ ',' :: (e.body ++ '}' :: z))) := by
  unfold WFEntry.render
  simp [List.append_assoc]

theorem brSplit_snd_length (B : List Char) : (brSplit B).2.length ≤ B.length + 1 := by
  unfold brSplit
  cases hs : splitAtFirst '}' B with
  | none => simp
  | some p =>
    obtain ⟨heq, _⟩ := splitAtFirst_eq '}' B p.1 p.2 (by rw [hs])
    have := congrArg List.length heq
    simp only [List.length_append, List.length_cons] at this
    simp only [List.length_append, List.length_cons, List.length_nil]
    omega

theorem scanEntriesF_no_at (fuel : Nat) : ∀ s : List Char, '@' ∉ s →
    scanEntriesF fuel s = [] := by
  induction fuel with
  | zero => intro s _; rfl
  | succ f ih =>
    intro s h
    match s with
    | [] => rfl
    | c :: rest =>
      have hc : ¬c = '@' := fun hcon => h (by simp [hcon])
      simp only [scanEntriesF, if_neg hc]
      exact ih rest fun hcon => h (by simp [hcon])

theorem scanEntries_render_entry (e : WFEntry) (hT : e.etype ≠ [])
    (hTw : ∀ c ∈ e.etype, isWordChar c = true) (hK : e.ekey ≠ [])
    (hKc : ',' ∉ e.ekey) (z : List Char) (fuel : Nat)
    (hfuel : (e.render ++ z).length ≤ fuel) :
    scanEntriesF fuel (e.render ++ z) =
      (⟨e.etype, keyCapture e.ekey, trimList (brSplit e.body).1⟩ : RawEntry) ::
        scanEntries ((brSplit e.body).2 ++ z) := by
  rw [render_append] at hfuel ⊢
  match fuel with
  | 0 => simp at hfuel
  | f + 1 =>
    rw [show scanEntriesF (f + 1) ('@' :: (e.etype ++ '{' :: (e.ekey ++ ',' :: (e.body ++ '}' :: z)))) =
        (match tryEntryAt (e.etype ++ '{' :: (e.ekey ++ ',' :: (e.body ++ '}' :: z))) with
        | some (en, rest2) => en :: scanEntriesF f rest2
        | none => scanEntriesF f (e.etype ++ '{' :: (e.ekey ++ ',' :: (e.body ++ '}' :: z)))) from rfl]
    rw [tryEntryAt_render e.etype e.ekey e.body z hT hTw hK hKc]
    have hlen : ((brSplit e.body).2 ++ z).length ≤ f := by
      have h1 := brSplit_snd_length e.body
      simp only [List.length_cons, List.length_append] at hfuel ⊢
      omega
    show (⟨e.etype, keyCapture e.ekey, trimList (brSplit e.body).1⟩ : RawEntry) ::
        scanEntriesF f ((brSplit e.body).2 ++ z) =
      (⟨e.etype, keyCapture e.ekey, trimList (brSplit e.body).1⟩ : RawEntry) ::
        scanEntries ((brSplit e.body).2 ++ z)
    rw [scanEntriesF_eq f _ hlen]

theorem scanEntries_renderDoc : ∀ (l : List WFEntry), (∀ e ∈ l, e.ok) →
    scanEntries (renderDoc l) = l.map extractedOf := by
  intro l
  induction l with
  | nil => intro _; rfl
  | cons e l' ih =>
    intro hok
    have hA : '@' ∉ (brSplit e.body).2 ++ [' '] := by
      intro hmem
      rcases List.mem_append.mp hmem with h1 | h1
      · exact brSplit_snd_no_at e.body (hok e (by simp)).2.2.2.2.2.2.2.2.2.1 h1
      · simp at h1
    obtain ⟨hT, hTw, hK, hKc, _, _, _, _, hKh, _, _, _, _⟩ := hok e (by simp)
    cases l' with
    | nil =>
      have hr : renderDoc [e] = e.render ++ [] := by simp [renderDoc]
      show scanEntriesF (renderDoc [e]).length (renderDoc [e]) = _
      rw [hr, scanEntries_render_entry e hT hTw hK hKc [] _ le_rfl,
        keyCapture_of_head e.ekey hK hKh]
      rw [List.append_nil]
      have h0 : scanEntries ((brSplit e.body).2) = [] :=
        scanEntriesF_no_at _ _ fun hmem => hA (by simp [hmem])
      rw [h0]
      rfl
    | cons e2 l'' =>
      have hr : renderDoc (e :: e2 :: l'') = e.render ++ (' ' :: renderDoc (e2 :: l'')) := rfl
      show scanEntriesF (renderDoc (e :: e2 :: l'')).length (renderDoc (e :: e2 :: l'')) = _
      rw [hr, scanEntries_render_entry e hT hTw hK hKc _ _ le_rfl,
        keyCapture_of_head e.ekey hK hKh]
      have hassoc : (brSplit e.body).2 ++ ' ' :: renderDoc (e2 :: l'') =
          ((brSplit e.body).2 ++ [' ']) ++ renderDoc (e2 :: l'') := by
        simp
      rw [hassoc]
      show _ :: scanEntriesF _ _ = _
      rw [scanEntriesF_skip _ _ hA _ le_rfl]
      rw [ih fun x hx => hok x (by simp [hx])]
      rfl

end BibTeX

namespace BibTeX

theorem ok_no_pct (e : WFEntry) (he : e.ok) : '%' ∉ e.ekey ∧ '%' ∉ e.body := by
  obtain ⟨_, _, _, _, _, h1, _, _, _, _, h2, _, _⟩ := he
  exact ⟨h1, h2⟩

theorem ok_no_nl (e : WFEntry) (he : e.ok) : '\n' ∉ e.ekey ∧ '\n' ∉ e.body := by
  obtain ⟨_, _, _, _, _, _, h1, _, _, _, _, h2, _⟩ := he
  exact ⟨h1, h2⟩

theorem not_mem_render (e : WFEntry) (x : Char)
    (hTw : ∀ c ∈ e.etype, isWordChar c = true) (hxw : isWordChar x = false)
    (hx1 : x ≠ '@') (hx2 : x ≠ '{') (hx3 : x ≠ ',') (hx4 : x ≠ '}')
    (hxk : x ∉ e.ekey) (hxb : x ∉ e.body) : x ∉ e.render := by
  intro hmem
  unfold WFEntry.render at hmem
  simp only [List.mem_cons, List.mem_append] at hmem
  rcases hmem with h | h | h | h | h | h
  · exact hx1 h
  · rw [hTw x h] at hxw; simp at hxw
  · exact hx2 h
  · exact hxk h
  · exact hx3 h
  · rcases h with h2 | h3 | h4
    · exact hxb h2
    · exact hx4 h3
    · simp at h4

theorem not_mem_renderDoc (x : Char) (hxw : isWordChar x = false)
    (hx1 : x ≠ '@') (hx2 : x ≠ '{') (hx3 : x ≠ ',') (hx4 : x ≠ '}') (hx5 : x ≠ ' ') :
    ∀ l : List WFEntry, (∀ e ∈ l, e.ok) → (∀ e ∈ l, x ∉ e.ekey ∧ x ∉ e.body) →
    x ∉ renderDoc l := by
  intro l
  induction l with
  | nil => intro _ _ h; simp [renderDoc] at h
  | cons e l' ih =>
    intro hok hkb
    cases l' with
    | nil =>
      rw [show renderDoc [e] = e.render from rfl]
      exact not_mem_render e x (hok e (by simp)).2.1 hxw hx1 hx2 hx3 hx4
        (hkb e (by simp)).1 (hkb e (by simp)).2
    | cons e2 l'' =>
      intro hmem
      rw [show renderDoc (e :: e2 :: l'') = e.render ++ ' ' :: renderDoc (e2 :: l'') from rfl]
        at hmem
      rcases List.mem_append.mp hmem with h | h
      · exact not_mem_render e x (hok e (by simp)).2.1 hxw hx1 hx2 hx3 hx4
          (hkb e (by simp)).1 (hkb e (by simp)).2 h
      · rcases List.mem_cons.mp h with h | h
        · exact hx5 h
        · exact ih (fun a ha => hok a (by simp [ha])) (fun a ha => hkb a (by simp [ha])) h

theorem renderDoc_head : ∀ (l : List WFEntry) (c : Char),
    (renderDoc l).head? = some c → c = '@' := by
  intro l c h
  match l with
  | [] => simp [renderDoc] at h
  | [e] =>
    have h0 : (renderDoc [e]).head? = some '@' := rfl
    exact (Option.some.inj (h0.symm.trans h)).symm
  | e :: e2 :: l'' =>
    have h0 : (renderDoc (e :: e2 :: l'')).head? = some '@' := rfl
    exact (Option.some.inj (h0.symm.trans h)).symm

theorem render_getLast (e : WFEntry) : e.render.getLast? = some '}' := by
  have h : e.render = ('@' :: e.etype ++ '{' :: e.ekey ++ ',' :: e.body) ++ ['}'] := by
    simp [WFEntry.render]
  rw [h]
  exact List.getLast?_concat _

theorem getLast_append_right : ∀ (xs ys : List Char), ys ≠ [] →
    (xs ++ ys).getLast? = ys.getLast? := by
  intro xs
  induction xs with
  | nil => intro ys _; rfl
  | cons c rest ih =>
    intro ys hy
    rw [List.cons_append]
    cases hrys : rest ++ ys with
    | nil => exact absurd (List.append_eq_nil.mp hrys).2 hy
    | cons d t' =>
      rw [List.getLast?_cons_cons, ← hrys]
      exact ih ys hy

theorem renderDoc_getLast : ∀ l : List WFEntry, l ≠ [] →
    (renderDoc l).getLast? = some '}' := by
  intro l
  induction l with
  | nil => intro h; exact absurd rfl h
  | cons e l' ih =>
    intro _
    cases l' with
    | nil => exact render_getLast e
    | cons e2 l'' =>
      have ihX : (renderDoc (e2 :: l'')).getLast? = some '}' := ih (by simp)
      have hne : renderDoc (e2 :: l'') ≠ [] := by
        intro hcon; rw [hcon] at ihX; simp at ihX
      rw [show renderDoc (e :: e2 :: l'') = e.render ++ ' ' :: renderDoc (e2 :: l'') from rfl]
      rw [getLast_append_right _ _ (by simp)]
      rw [show (' ' :: renderDoc (e2 :: l'') : List Char) = [' '] ++ renderDoc (e2 :: l'')
        from rfl]
      rw [getLast_append_right _ _ hne]
      exact ihX

theorem preprocess_renderDoc (l : List WFEntry) (hok : ∀ e ∈ l, e.ok) :
    preprocess (renderDoc l) = renderDoc l := by
  have hpct : '%' ∉ renderDoc l :=
    not_mem_renderDoc '%' (by decide) (by decide) (by decide) (by decide) (by decide)
      (by decide) l hok (fun e he => ok_no_pct e (hok e he))
  have hnl : '\n' ∉ renderDoc l :=
    not_mem_renderDoc '\n' (by decide) (by decide) (by decide) (by decide) (by decide)
      (by decide) l hok (fun e he => ok_no_nl e (hok e he))
  unfold preprocess
  rw [stripComments_id _ hpct, collapseBlank_id _ (noBlank_of_no_nl _ hnl)]
  apply trimList_id
  · intro c hc
    rw [renderDoc_head l c hc]
    decide
  · intro c hc
    cases l with
    | nil => simp [renderDoc] at hc
    | cons e l' =>
      have h2 : some '}' = some c := (renderDoc_getLast (e :: l') (by simp)).symm.trans hc
      rw [← Option.some.inj h2]
      decide

theorem extractEntries_renderDoc (l : List WFEntry) (hok : ∀ e ∈ l, e.ok) :
    extractEntries (renderDoc l) = l.map extractedOf := by
  unfold extractEntries
  rw [preprocess_renderDoc l hok]
  exact scanEntries_renderDoc l hok

end BibTeX

namespace BibTeX

/-- C5: order preservation and 1:1 mapping. For every document consisting of
well-formed entries in sequence (rendered with single-space separators),
`parseBibTeX` succeeds and returns exactly one record per entry, in document
order: the i-th record is the record produced from the i-th entry - in
particular its `id` is that entry's key and its `type` is the mapped entry
type. No entry is reordered, dropped, or duplicated. -/
theorem c5_order_preservation (l : List WFEntry) (hok : ∀ e ∈ l, e.ok) :
    ∃ recs : List Record, parseBibTeX (renderDoc l) = some recs ∧
      recs.length = l.length ∧
      ∀ i (hi : i < l.length) (hr : i < recs.length),
        recs.get ⟨i, hr⟩ = baseRecord (extractedOf (l.get ⟨i, hi⟩)) ∧
        rGet (recs.get ⟨i, hr⟩) (S "id") = some (.vStr (l.get ⟨i, hi⟩).ekey) ∧
        rGet (recs.get ⟨i, hr⟩) (S "type") =
          some (.vStr (mapEntryType (l.get ⟨i, hi⟩).etype)) := by
  refine ⟨(l.map extractedOf).map baseRecord, ?_, by simp, ?_⟩
  · rw [parseBibTeX_eq_map, extractEntries_renderDoc l hok]
  · intro i hi hr
    have hget : ((l.map extractedOf).map baseRecord).get ⟨i, hr⟩ =
        baseRecord (extractedOf (l.get ⟨i, hi⟩)) := by
      simp [List.get_eq_getElem, List.getElem_map]
    refine ⟨hget, ?_, ?_⟩
    · rw [hget, rGet_baseRecord_id]
      rfl
    · rw [hget, rGet_baseRecord_type]
      rfl

def c5doc : List WFEntry := [⟨S "article", S "k1", S "x"⟩, ⟨S "misc", S "k2", S "y"⟩]

/-- C5 witness: a concrete two-entry document, both entries well-formed;
the conclusion instantiated there. -/
theorem c5_witness :
    (∀ e ∈ c5doc, e.ok) ∧
    (∃ recs : List Record, parseBibTeX (renderDoc c5doc) = some recs ∧
      recs.length = c5doc.length ∧
      ∀ i (hi : i < c5doc.length) (hr : i < recs.length),
        recs.get ⟨i, hr⟩ = baseRecord (extractedOf (c5doc.get ⟨i, hi⟩)) ∧
        rGet (recs.get ⟨i, hr⟩) (S "id") = some (.vStr (c5doc.get ⟨i, hi⟩).ekey) ∧
        rGet (recs.get ⟨i, hr⟩) (S "type") =
          some (.vStr (mapEntryType (c5doc.get ⟨i, hi⟩).etype))) :=
  ⟨by decide, c5_order_preservation c5doc (by decide)⟩

end BibTeX

namespace BibTeX

/-- C8 (counterexample): the `raw_bibtex` attribute is NOT the verbatim
original text of the entry.  The input entry `@a\x7bk,x\x7d` is stored as
`@a\x7bk, x\x7d`: the text is reconstructed from the captured groups with a
normalized `, ` separator (and in general with the content truncated at the
first closing brace and trimmed), not copied from the document. -/
theorem c8_counterexample :
    parseBibTeX (S "@a\x7bk,x\x7d") =
      some [[(S "id", .vStr (S "k")), (S "type", .vStr (S "other")),
        (S "raw_bibtex", .vStr (S "@a\x7bk, x\x7d"))]] ∧
    S "@a\x7bk, x\x7d" ≠ S "@a\x7bk,x\x7d" := by
  constructor
  · decide
  · decide

/-- C8 (amended): for every entry produced by the extractor, the record's
`raw_bibtex` attribute is the *reconstruction*
`"@" ++ type ++ "\x7b" ++ key ++ ", " ++ content ++ "\x7d"` built from the
captured type, key and (first-brace-truncated, trimmed) content - not the
verbatim document text. -/
theorem c8_raw_markup (doc : List Char) (e : RawEntry) (r : Record)
    (he : e ∈ extractEntries doc) (hr : parseEntry e = some r) :
    rGet r (S "raw_bibtex") =
      some (.vStr (S "@" ++ e.type ++ S "\x7b" ++ e.key ++ S ", " ++
        e.content ++ S "\x7d")) := by
  have hb := parseEntry_extracted e (extractEntries_inv doc e he).1
  rw [hr] at hb
  rw [Option.some.inj hb]
  exact rGet_baseRecord_raw e

/-- C8 witness: the amended theorem instantiated on the concrete document
`@a\x7bk,x\x7d` and its single extracted entry. -/
theorem c8_witness :
    (⟨S "a", S "k", S "x"⟩ : RawEntry) ∈ extractEntries (S "@a\x7bk,x\x7d") ∧
    parseEntry ⟨S "a", S "k", S "x"⟩ = some (baseRecord ⟨S "a", S "k", S "x"⟩) ∧
    rGet (baseRecord (⟨S "a", S "k", S "x"⟩ : RawEntry)) (S "raw_bibtex") =
      some (.vStr (S "@" ++ S "a" ++ S "\x7b" ++ S "k" ++ S ", " ++ S "x" ++ S "\x7d")) :=
  ⟨by decide, by decide,
    c8_raw_markup (S "@a\x7bk,x\x7d") ⟨S "a", S "k", S "x"⟩
      (baseRecord ⟨S "a", S "k", S "x"⟩) (by decide) (by decide)⟩

end BibTeX

namespace BibTeX

/-- If the text after the `@` contains no closing brace, the entry regex
cannot match there. -/
theorem tryEntryAt_no_brace (s : List Char) (h : '}' ∉ s) : tryEntryAt s = none := by
  unfold tryEntryAt
  split
  · rfl
  · split
    · rename_i t hm
      unfold entryAfterBrace
      split
      · rfl
      · rename_i kpart u hsp
        split
        · rfl
        · split
          · rfl
          · rename_i q cpart rest hsp2
            exfalso
            have ht : t = kpart ++ ',' :: u := (splitAtFirst_eq ',' t kpart u hsp).1
            have hu : u = cpart ++ '}' :: rest := (splitAtFirst_eq '}' u cpart rest hsp2).1
            have hmem : '}' ∈ ('{' :: t : List Char) := by
              rw [ht, hu]; simp
            rw [← hm] at hmem
            exact h ((List.dropWhile_sublist _).subset ((List.dropWhile_sublist _).subset hmem))
    · rfl

/-- A lone `@` followed by brace-free text yields no entry at all. -/
theorem scanEntries_bad_tail (rest2 : List Char) (hat : '@' ∉ rest2)
    (hbr : tryEntryAt rest2 = none) : scanEntries ('@' :: rest2) = [] := by
  show scanEntriesF (rest2.length + 1) ('@' :: rest2) = []
  rw [show scanEntriesF (rest2.length + 1) ('@' :: rest2) =
      (match tryEntryAt rest2 with
      | some (en, r2) => en :: scanEntriesF rest2.length r2
      | none => scanEntriesF rest2.length rest2) from rfl]
  rw [hbr]
  exact scanEntriesF_no_at _ _ hat

theorem scanEntries_renderDoc_append : ∀ (l : List WFEntry), (∀ e ∈ l, e.ok) →
    ∀ rest : List Char,
    scanEntries (renderDoc l ++ ' ' :: rest) = l.map extractedOf ++ scanEntries rest := by
  intro l
  induction l with
  | nil =>
    intro _ rest
    show scanEntriesF (renderDoc [] ++ ' ' :: rest).length (renderDoc [] ++ ' ' :: rest) = _
    rw [show (renderDoc [] ++ ' ' :: rest : List Char) = [' '] ++ rest from rfl]
    rw [scanEntriesF_skip [' '] rest (by decide) _ le_rfl]
    rfl
  | cons e l' ih =>
    intro hok rest
    obtain ⟨hT, hTw, hK, hKc, _, _, _, _, hKh, _, _, _, _⟩ := hok e (by simp)
    have hA : '@' ∉ (brSplit e.body).2 ++ [' '] := by
      intro hmem
      rcases List.mem_append.mp hmem with h1 | h1
      · exact brSplit_snd_no_at e.body
          (hok e (by simp)).2.2.2.2.2.2.2.2.2.1 h1
      · simp at h1
    cases l' with
    | nil =>
      show scanEntriesF (renderDoc [e] ++ ' ' :: rest).length (renderDoc [e] ++ ' ' :: rest) = _
      rw [show (renderDoc [e] ++ ' ' :: rest : List Char) = e.render ++ ' ' :: rest from rfl]
      rw [scanEntries_render_entry e hT hTw hK hKc _ _ le_rfl,
        keyCapture_of_head e.ekey hK hKh]
      have hassoc : (brSplit e.body).2 ++ ' ' :: rest =
          ((brSplit e.body).2 ++ [' ']) ++ rest := by simp
      rw [hassoc]
      show _ :: scanEntriesF _ _ = _
      rw [scanEntriesF_skip _ _ hA _ le_rfl]
      rfl
    | cons e2 l'' =>
      have hr : renderDoc (e :: e2 :: l'') ++ ' ' :: rest =
          e.render ++ ' ' :: (renderDoc (e2 :: l'') ++ ' ' :: rest) := by
        rw [show renderDoc (e :: e2 :: l'') = e.render ++ ' ' :: renderDoc (e2 :: l'')
          from rfl]
        simp
      show scanEntriesF (renderDoc (e :: e2 :: l'') ++ ' ' :: rest).length
        (renderDoc (e :: e2 :: l'') ++ ' ' :: rest) = _
      rw [hr, scanEntries_render_entry e hT hTw hK hKc _ _ le_rfl,
        keyCapture_of_head e.ekey hK hKh]
      have hassoc : (brSplit e.body).2 ++ ' ' :: (renderDoc (e2 :: l'') ++ ' ' :: rest) =
          ((brSplit e.body).2 ++ [' ']) ++ (renderDoc (e2 :: l'') ++ ' ' :: rest) := by
        simp
      rw [hassoc]
      show _ :: scanEntriesF _ _ = _
      rw [scanEntriesF_skip _ _ hA _ le_rfl]
      rw [ih (fun x hx => hok x (by simp [hx])) rest]
      rfl

end BibTeX

namespace BibTeX

/-- C9 (counterexample): parsing of the other entries is NOT unaffected by
a malformed entry.  Here the first entry `k1` lacks its closing braces, and
the following well-formed entry `@misc\x7bk2, ...\x7d` is swallowed into
`k1`'s body: the output has a single record `k1` and no record for `k2` at
all. -/
theorem c9_counterexample :
    parseBibTeX
        (S "@article\x7bk1, title = \x7boops\n@misc\x7bk2, note = \x7bok\x7d\x7d") =
      some [[(S "id", .vStr (S "k1")), (S "type", .vStr (S "journal")),
        (S "raw_bibtex", .vStr (S "@article\x7bk1, title = \x7boops\n@misc\x7bk2, note = \x7bok\x7d"))]] := by
  decide

/-- C9 (amended): `parseBibTeX` never fails on any input (graceful
degradation, first half of the claim), and a *trailing* malformed entry -
an `@type\x7bkey,` opening with no closing brace anywhere after it - is
simply dropped: the document consisting of well-formed entries followed by
such a fragment parses exactly like the document without the fragment.
(The second half of the original claim - that the other entries of the
document are never affected - is refuted by the counterexample: a
malformed entry swallows a following well-formed one.) -/
theorem c9_graceful_degradation (s : List Char) (l : List WFEntry) (T K B : List Char)
    (hok : ∀ e ∈ l, e.ok) (hl : l ≠ [])
    (hT : T ≠ []) (hTw : ∀ c ∈ T, isWordChar c = true)
    (hKbr : '}' ∉ K) (hBbr : '}' ∉ B) (hKat : '@' ∉ K) (hBat : '@' ∉ B)
    (hKpc : '%' ∉ K) (hBpc : '%' ∉ B) (hKnl : '\n' ∉ K) (hBnl : '\n' ∉ B)
    (hlast : ∀ c, ('@' :: (T ++ '{' :: (K ++ ',' :: B))).getLast? = some c →
      isSpace c = false) :
    (parseBibTeX s).isSome = true ∧
    parseBibTeX (renderDoc l ++ ' ' :: ('@' :: (T ++ '{' :: (K ++ ',' :: B)))) =
      parseBibTeX (renderDoc l) := by
  constructor
  · rw [parseBibTeX_eq_map]
    rfl
  · have hTno : ∀ x : Char, isWordChar x = false → x ∉ T := by
      intro x hx hmem
      rw [hTw x hmem] at hx
      simp at hx
    have hrest_no : ∀ x : Char, isWordChar x = false → x ≠ '{' → x ≠ ',' →
        x ∉ K → x ∉ B → x ∉ (T ++ '{' :: (K ++ ',' :: B)) := by
      intro x hxw hx2 hx3 hxk hxb hmem
      simp only [List.mem_cons, List.mem_append] at hmem
      rcases hmem with h | h | h | h | h
      · exact hTno x hxw h
      · exact hx2 h
      · exact hxk h
      · exact hx3 h
      · exact hxb h
    have hdoc_no : ∀ x : Char, isWordChar x = false → x ≠ '@' → x ≠ '{' → x ≠ ',' →
        x ≠ '}' → x ≠ ' ' → x ∉ K → x ∉ B → (∀ e ∈ l, x ∉ e.ekey ∧ x ∉ e.body) →
        x ∉ renderDoc l ++ ' ' :: ('@' :: (T ++ '{' :: (K ++ ',' :: B))) := by
      intro x hxw hx1 hx2 hx3 hx4 hx5 hxk hxb hkb hmem
      rcases List.mem_append.mp hmem with h | h
      · exact not_mem_renderDoc x hxw hx1 hx2 hx3 hx4 hx5 l hok hkb h
      · rcases List.mem_cons.mp h with h | h
        · exact hx5 h
        · rcases List.mem_cons.mp h with h | h
          · exact hx1 h
          · exact hrest_no x hxw hx2 hx3 hxk hxb h
    have hpct : '%' ∉ renderDoc l ++ ' ' :: ('@' :: (T ++ '{' :: (K ++ ',' :: B))) :=
      hdoc_no '%' (by decide) (by decide) (by decide) (by decide) (by decide) (by decide)
        hKpc hBpc (fun e he => ok_no_pct e (hok e he))
    have hnl : '\n' ∉ renderDoc l ++ ' ' :: ('@' :: (T ++ '{' :: (K ++ ',' :: B))) :=
      hdoc_no '\n' (by decide) (by decide) (by decide) (by decide) (by decide) (by decide)
        hKnl hBnl (fun e he => ok_no_nl e (hok e he))
    have hhead : ∀ c, (renderDoc l ++ ' ' :: ('@' :: (T ++ '{' :: (K ++ ',' :: B)))).head? =
        some c → isSpace c = false := by
      intro c hc
      match l, hl with
      | e :: l', _ =>
        cases l' with
        | nil =>
          have h0 : ((renderDoc [e] ++
              ' ' :: ('@' :: (T ++ '{' :: (K ++ ',' :: B)))) : List Char).head? =
              some '@' := rfl
          rw [← Option.some.inj (h0.symm.trans hc)]
          decide
        | cons e2 l'' =>
          have h0 : ((renderDoc (e :: e2 :: l'') ++
              ' ' :: ('@' :: (T ++ '{' :: (K ++ ',' :: B)))) : List Char).head? =
              some '@' := rfl
          rw [← Option.some.inj (h0.symm.trans hc)]
          decide
    have hgl : ∀ c, (renderDoc l ++ ' ' :: ('@' :: (T ++ '{' :: (K ++ ',' :: B)))).getLast? =
        some c → isSpace c = false := by
      intro c hc
      rw [getLast_append_right _ _ (by simp)] at hc
      rw [show (' ' :: ('@' :: (T ++ '{' :: (K ++ ',' :: B))) : List Char) =
        [' '] ++ ('@' :: (T ++ '{' :: (K ++ ',' :: B))) from rfl] at hc
      rw [getLast_append_right _ _ (by simp)] at hc
      exact hlast c hc
    have hpre : preprocess (renderDoc l ++ ' ' :: ('@' :: (T ++ '{' :: (K ++ ',' :: B)))) =
        renderDoc l ++ ' ' :: ('@' :: (T ++ '{' :: (K ++ ',' :: B))) := by
      unfold preprocess
      rw [stripComments_id _ hpct, collapseBlank_id _ (noBlank_of_no_nl _ hnl)]
      exact trimList_id _ hhead hgl
    have hbr2 : '}' ∉ (T ++ '{' :: (K ++ ',' :: B)) :=
      hrest_no '}' (by decide) (by decide) (by decide) hKbr hBbr
    have hat2 : '@' ∉ (T ++ '{' :: (K ++ ',' :: B)) :=
      hrest_no '@' (by decide) (by decide) (by decide) hKat hBat
    have hext : extractEntries (renderDoc l ++ ' ' :: ('@' :: (T ++ '{' :: (K ++ ',' :: B)))) =
        extractEntries (renderDoc l) := by
      unfold extractEntries
      rw [hpre, preprocess_renderDoc l hok]
      rw [scanEntries_renderDoc_append l hok _,
        scanEntries_bad_tail _ hat2 (tryEntryAt_no_brace _ hbr2),
        scanEntries_renderDoc l hok, List.append_nil]
    rw [parseBibTeX_eq_map, parseBibTeX_eq_map, hext]

/-- C9 witness: a concrete one-entry document followed by a trailing
brace-less fragment `@misc\x7bk2,oops`. -/
theorem c9_witness :
    ((parseBibTeX (S "@x")).isSome = true) ∧
    parseBibTeX (renderDoc [(⟨S "a", S "k", S "x"⟩ : WFEntry)] ++
        ' ' :: ('@' :: (S "misc" ++ '{' :: (S "k2" ++ ',' :: S "oops")))) =
      parseBibTeX (renderDoc [(⟨S "a", S "k", S "x"⟩ : WFEntry)]) :=
  c9_graceful_degradation (S "@x") [⟨S "a", S "k", S "x"⟩] (S "misc") (S "k2") (S "oops")
    (by decide) (by decide) (by decide) (by decide) (by decide) (by decide) (by decide)
    (by decide) (by decide) (by decide) (by decide) (by decide) (by decide)

end BibTeX

namespace BibTeX

theorem foldl_toJSON_nil (p : Record) : ∀ tbl : List (List Char × List Char),
    (∀ bo ∈ tbl, rGet p bo.2 = none) →
    tbl.foldl (fun acc bo =>
      match rGet p bo.2 with
      | some v => if jsTruthy v then jsObjSet acc bo.1 (formatFieldForBibTeX bo.2 v)
        else acc
      | none => acc) [] = [] := by
  intro tbl
  induction tbl with
  | nil => intro _; rfl
  | cons bo rest ih =>
    intro hb
    rw [List.foldl_cons]
    rw [show (match rGet p bo.2 with
      | some v => if jsTruthy v then jsObjSet [] bo.1 (formatFieldForBibTeX bo.2 v)
        else ([] : List (List Char × List Char))
      | none => ([] : List (List Char × List Char))) =
      ([] : List (List Char × List Char)) from by rw [hb bo (by simp)]]
    exact ih fun b hb2 => hb b (by simp [hb2])

theorem toJSONFields_baseRecord (e : RawEntry) : toJSONFields (baseRecord e) = [] := by
  have hmem : ∀ bo ∈ fieldMappings,
      bo.2 ≠ S "id" ∧ bo.2 ≠ S "type" ∧ bo.2 ≠ S "raw_bibtex" := by decide
  unfold toJSONFields
  exact foldl_toJSON_nil (baseRecord e) fieldMappings fun bo hbo =>
    rGet_baseRecord_other e bo.2 (hmem bo hbo).1 (hmem bo hbo).2.1 (hmem bo hbo).2.2

theorem generateBibTeX_baseRecord (e : RawEntry) :
    generateBibTeX (baseRecord e) =
      WFEntry.render ⟨reverseMapType (mapEntryType e.type), e.key, ['\n']⟩ := by
  simp only [generateBibTeX, rGet_baseRecord_type, rGet_baseRecord_id,
    toJSONFields_baseRecord, jsToString, renderFields, WFEntry.render]
  simp only [List.append_assoc]
  rfl

theorem reverseMapType_mem (x : List Char) : reverseMapType x ∈
    [S "article", S "inproceedings", S "incollection", S "book", S "phdthesis",
     S "techreport", S "misc", S "unpublished", S "patent"] := by
  unfold reverseMapType
  cases h : tblGet reverseTypeMapping x with
  | none => decide
  | some v =>
    obtain ⟨p, hp, _, hv⟩ := tblGet_mem _ _ _ h
    subst hv
    simp only [reverseTypeMapping, List.mem_cons] at hp
    rcases hp with rfl | rfl | rfl | rfl | rfl | rfl | rfl | rfl | rfl | rfl | rfl | hp
    · decide
    · decide
    · decide
    · decide
    · decide
    · decide
    · decide
    · decide
    · decide
    · decide
    · decide
    · simp at hp

theorem reverseMapType_facts (x : List Char) :
    reverseMapType x ≠ [] ∧ ∀ c ∈ reverseMapType x, isWordChar c = true := by
  have h := reverseMapType_mem x
  simp only [List.mem_cons] at h
  rcases h with h | h | h | h | h | h | h | h | h | h
  · rw [h]; exact ⟨by decide, by decide⟩
  · rw [h]; exact ⟨by decide, by decide⟩
  · rw [h]; exact ⟨by decide, by decide⟩
  · rw [h]; exact ⟨by decide, by decide⟩
  · rw [h]; exact ⟨by decide, by decide⟩
  · rw [h]; exact ⟨by decide, by decide⟩
  · rw [h]; exact ⟨by decide, by decide⟩
  · rw [h]; exact ⟨by decide, by decide⟩
  · rw [h]; exact ⟨by decide, by decide⟩
  · simp at h

theorem mapEntryType_mem (t : List Char) : mapEntryType t ∈
    [S "journal", S "conference", S "book_chapter", S "book", S "thesis",
     S "report", S "other", S "preprint", S "patent", S "dataset", S "software"] := by
  unfold mapEntryType
  cases h : tblGet typeMapping (toLowerList t) with
  | none => decide
  | some v =>
    obtain ⟨p, hp, _, hv⟩ := tblGet_mem _ _ _ h
    subst hv
    simp only [typeMapping, List.mem_cons] at hp
    rcases hp with rfl | rfl | rfl | rfl | rfl | rfl | rfl | rfl | rfl | rfl | rfl | rfl |
      rfl | rfl | rfl | rfl | hp
    · decide
    · decide
    · decide
    · decide
    · decide
    · decide
    · decide
    · decide
    · decide
    · decide
    · decide
    · decide
    · decide
    · decide
    · decide
    · decide
    · simp at hp

theorem mapEntryType_reverse_roundtrip (t : List Char)
    (h1 : mapEntryType t ≠ S "dataset") (h2 : mapEntryType t ≠ S "software") :
    mapEntryType (reverseMapType (mapEntryType t)) = mapEntryType t := by
  have h := mapEntryType_mem t
  simp only [List.mem_cons] at h
  rcases h with h | h | h | h | h | h | h | h | h | h | h | h
  · rw [h]; decide
  · rw [h]; decide
  · rw [h]; decide
  · rw [h]; decide
  · rw [h]; decide
  · rw [h]; decide
  · rw [h]; decide
  · rw [h]; decide
  · rw [h]; decide
  · exact absurd h h1
  · exact absurd h h2
  · simp at h

end BibTeX

namespace BibTeX

/-- C1 (counterexample): the round-trip does not preserve `type` for every
record.  A `@dataset` entry parses to type `dataset`; `generateBibTeX`
serializes that type as `@misc` (the reverse table maps both `dataset` and
`software` to `misc`), and re-parsing yields type `other`. -/
theorem c1_counterexample :
    parseBibTeX (S "@dataset\x7bk, year = \x7b2020\x7d\x7d") =
      some [[(S "id", .vStr (S "k")), (S "type", .vStr (S "dataset")),
        (S "raw_bibtex", .vStr (S "@dataset\x7bk, year = \x7b2020\x7d"))]] ∧
    parseBibTeX (generateBibTeX [(S "id", .vStr (S "k")), (S "type", .vStr (S "dataset")),
        (S "raw_bibtex", .vStr (S "@dataset\x7bk, year = \x7b2020\x7d"))]) =
      some [[(S "id", .vStr (S "k")), (S "type", .vStr (S "other")),
        (S "raw_bibtex", .vStr (S "@misc\x7bk, \x7d"))]] ∧
    (S "other" : List Char) ≠ S "dataset" := by
  refine ⟨by decide, by decide, by decide⟩

/-- C1 (amended): for every record the parser actually produces (which, due
to the entry-truncation bug, carries only `id`, `type` and `raw_bibtex`),
serializing with `generateBibTeX` and re-parsing yields exactly one record
with the same `type` - provided the type is not `dataset` or `software`
(those collapse to `misc` and re-parse as `other`) and the entry key
contains no `%` or newline - and with the same (absent) `author_string`,
`year`, `doi` and `url`. -/
theorem c1_roundtrip (doc : List Char) (e : RawEntry) (r : Record)
    (he : e ∈ extractEntries doc) (hr : parseEntry e = some r)
    (hds : rGet r (S "type") ≠ some (.vStr (S "dataset")))
    (hsw : rGet r (S "type") ≠ some (.vStr (S "software")))
    (hpk : '%' ∉ e.key) (hnk : '\n' ∉ e.key) :
    ∃ r2 : Record, parseBibTeX (generateBibTeX r) = some [r2] ∧
      rGet r2 (S "type") = rGet r (S "type") ∧
      rGet r2 (S "author_string") = rGet r (S "author_string") ∧
      rGet r2 (S "year") = rGet r (S "year") ∧
      rGet r2 (S "doi") = rGet r (S "doi") ∧
      rGet r2 (S "url") = rGet r (S "url") := by
  have hinv := extractEntries_inv doc e he
  have hb := parseEntry_extracted e hinv.1
  rw [hr] at hb
  have hre : r = baseRecord e := Option.some.inj hb
  subst hre
  have hds2 : mapEntryType e.type ≠ S "dataset" := by
    intro hcon
    exact hds (by rw [rGet_baseRecord_type, hcon])
  have hsw2 : mapEntryType e.type ≠ S "software" := by
    intro hcon
    exact hsw (by rw [rGet_baseRecord_type, hcon])
  have hfacts := reverseMapType_facts (mapEntryType e.type)
  have hpct : '%' ∉ (⟨reverseMapType (mapEntryType e.type), e.key, ['\n']⟩ : WFEntry).render :=
    not_mem_render _ '%' hfacts.2 (by decide) (by decide) (by decide) (by decide) (by decide)
      hpk (show '%' ∉ (['\n'] : List Char) by decide)
  have hnb : noBlank (⟨reverseMapType (mapEntryType e.type), e.key, ['\n']⟩ : WFEntry).render
      = true := by
    have hrw : (⟨reverseMapType (mapEntryType e.type), e.key, ['\n']⟩ : WFEntry).render =
        ('@' :: (reverseMapType (mapEntryType e.type) ++ '{' :: (e.key ++ [',']))) ++
          ['\n', '}'] := by
      simp [WFEntry.render]
    rw [hrw]
    apply noBlank_append_no_nl
    · intro hmem
      simp only [List.mem_cons, List.mem_append] at hmem
      rcases hmem with h | h | h | h | h
      · exact absurd h (by decide)
      · exact absurd (hfacts.2 '\n' h) (by decide)
      · exact absurd h (by decide)
      · exact hnk h
      · exact absurd h (by decide)
    · decide
  have hpre : preprocess
      ((⟨reverseMapType (mapEntryType e.type), e.key, ['\n']⟩ : WFEntry).render) =
      (⟨reverseMapType (mapEntryType e.type), e.key, ['\n']⟩ : WFEntry).render := by
    unfold preprocess
    rw [stripComments_id _ hpct, collapseBlank_id _ hnb]
    apply trimList_id
    · intro c hc
      have h0 : ((⟨reverseMapType (mapEntryType e.type), e.key, ['\n']⟩ :
          WFEntry).render).head? = some '@' := rfl
      rw [← Option.some.inj (h0.symm.trans hc)]
      decide
    · intro c hc
      have h0 := render_getLast ⟨reverseMapType (mapEntryType e.type), e.key, ['\n']⟩
      rw [← Option.some.inj (h0.symm.trans hc)]
      decide
  have hext : extractEntries
      ((⟨reverseMapType (mapEntryType e.type), e.key, ['\n']⟩ : WFEntry).render) =
      [(⟨reverseMapType (mapEntryType e.type), e.key, []⟩ : RawEntry)] := by
    unfold extractEntries
    rw [hpre]
    show scanEntriesF
      ((⟨reverseMapType (mapEntryType e.type), e.key, ['\n']⟩ : WFEntry).render).length
      ((⟨reverseMapType (mapEntryType e.type), e.key, ['\n']⟩ : WFEntry).render) = _
    have het : (⟨reverseMapType (mapEntryType e.type), e.key, ['\n']⟩ : WFEntry).render =
        (⟨reverseMapType (mapEntryType e.type), e.key, ['\n']⟩ : WFEntry).render ++ [] :=
      (List.append_nil _).symm
    rw [het]
    rw [scanEntries_render_entry ⟨reverseMapType (mapEntryType e.type), e.key, ['\n']⟩
      hfacts.1 hfacts.2 hinv.2.2.1 hinv.2.1 [] _ le_rfl]
    show (⟨reverseMapType (mapEntryType e.type), keyCapture e.key,
        trimList (brSplit ['\n']).1⟩ : RawEntry) ::
      scanEntries ((brSplit ['\n']).2 ++ []) =
      [(⟨reverseMapType (mapEntryType e.type), e.key, []⟩ : RawEntry)]
    rw [hinv.2.2.2]
    rfl
  refine ⟨baseRecord ⟨reverseMapType (mapEntryType e.type), e.key, []⟩, ?_, ?_, ?_, ?_, ?_, ?_⟩
  · rw [generateBibTeX_baseRecord, parseBibTeX_eq_map, hext]
    rfl
  · rw [rGet_baseRecord_type, rGet_baseRecord_type]
    show some (JVal.vStr (mapEntryType (reverseMapType (mapEntryType e.type)))) =
      some (JVal.vStr (mapEntryType e.type))
    rw [mapEntryType_reverse_roundtrip e.type hds2 hsw2]
  · rw [rGet_baseRecord_other _ _ (by decide) (by decide) (by decide),
      rGet_baseRecord_other _ _ (by decide) (by decide) (by decide)]
  · rw [rGet_baseRecord_other _ _ (by decide) (by decide) (by decide),
      rGet_baseRecord_other _ _ (by decide) (by decide) (by decide)]
  · rw [rGet_baseRecord_other _ _ (by decide) (by decide) (by decide),
      rGet_baseRecord_other _ _ (by decide) (by decide) (by decide)]
  · rw [rGet_baseRecord_other _ _ (by decide) (by decide) (by decide),
      rGet_baseRecord_other _ _ (by decide) (by decide) (by decide)]

/-- C1 witness: the amended round-trip instantiated on the entry
`@book\x7bk,x\x7d`. -/
theorem c1_witness :
    ((⟨S "book", S "k", S "x"⟩ : RawEntry) ∈ extractEntries (S "@book\x7bk,x\x7d")) ∧
    (∃ r2 : Record,
      parseBibTeX (generateBibTeX (baseRecord ⟨S "book", S "k", S "x"⟩)) = some [r2] ∧
      rGet r2 (S "type") =
        rGet (baseRecord (⟨S "book", S "k", S "x"⟩ : RawEntry)) (S "type") ∧
      rGet r2 (S "author_string") =
        rGet (baseRecord (⟨S "book", S "k", S "x"⟩ : RawEntry)) (S "author_string") ∧
      rGet r2 (S "year") =
        rGet (baseRecord (⟨S "book", S "k", S "x"⟩ : RawEntry)) (S "year") ∧
      rGet r2 (S "doi") =
        rGet (baseRecord (⟨S "book", S "k", S "x"⟩ : RawEntry)) (S "doi") ∧
      rGet r2 (S "url") =
        rGet (baseRecord (⟨S "book", S "k", S "x"⟩ : RawEntry)) (S "url")) :=
  ⟨by decide, c1_roundtrip (S "@book\x7bk,x\x7d") ⟨S "book", S "k", S "x"⟩
    (baseRecord ⟨S "book", S "k", S "x"⟩) (by decide) (by decide) (by decide) (by decide)
    (by decide) (by decide)⟩

end BibTeX
